import Mathlib

/-!
Verification development for the pyGSTi repository: shallow embeddings of the
circuit-list construction utilities, the circuit string grammar, the density-matrix
effect representations, experiment-design composition, basis validation, the
fiducial/germ selection contract, and the prepare-commit-msg git hook, together
with theorems settling the specification claims about them.
-/

namespace PyGSTi

/-! ## Common list utilities (`pygsti.remove_duplicates`) -/

/-- Modelled from the spec: removal of exact duplicate circuits from a list while
preserving first-seen order (`pygsti.remove_duplicates`, whose implementation is not
among the provided sources).  `seen` accumulates the elements already emitted. -/
def removeDuplicatesAux {α : Type} [DecidableEq α] (seen : List α) : List α → List α
  | [] => []
  | x :: rest =>
    if x ∈ seen then removeDuplicatesAux seen rest
    else x :: removeDuplicatesAux (x :: seen) rest

/-- Modelled from the spec: `pygsti.remove_duplicates` keeping first occurrences. -/
def removeDuplicates {α : Type} [DecidableEq α] (l : List α) : List α :=
  removeDuplicatesAux [] l

theorem mem_removeDuplicatesAux {α : Type} [DecidableEq α] (seen : List α) (l : List α)
    (x : α) : x ∈ removeDuplicatesAux seen l ↔ x ∈ l ∧ x ∉ seen := by
  induction l generalizing seen with
  | nil => simp [removeDuplicatesAux]
  | cons y rest ih =>
    simp only [removeDuplicatesAux]
    by_cases hy : y ∈ seen
    · rw [if_pos hy, ih]
      simp only [List.mem_cons]
      constructor
      · rintro ⟨hx, hns⟩
        exact ⟨Or.inr hx, hns⟩
      · rintro ⟨(rfl | hx), hns⟩
        · exact absurd hy hns
        · exact ⟨hx, hns⟩
    · rw [if_neg hy]
      simp only [List.mem_cons, ih]
      constructor
      · rintro (rfl | ⟨hx, hns⟩)
        · exact ⟨Or.inl rfl, hy⟩
        · exact ⟨Or.inr hx, fun h => hns (Or.inr h)⟩
      · rintro ⟨hx | hx, hns⟩
        · exact Or.inl hx
        · by_cases hxy : x = y
          · exact Or.inl hxy
          · exact Or.inr ⟨hx, fun h => h.elim hxy hns⟩

theorem mem_removeDuplicates {α : Type} [DecidableEq α] (l : List α) (x : α) :
    x ∈ removeDuplicates l ↔ x ∈ l := by
  simp [removeDuplicates, mem_removeDuplicatesAux]

end PyGSTi

namespace PyGSTi.Hook

/-! ## The `prepare-commit-msg` git hook (src/scripts/git/prepare-commit-msg)

The hook imports a configured allow-list `no_ci_triggered` of file extensions from
`hooksettings` (a file not among the provided sources), so every definition below is
parameterized by that list.  Filenames and message text are modelled as Lean
`String`s, matching the Python `str` values the script manipulates. -/

/-- The text after the last dot of a filename: Python `filename.rsplit('.', 1)[1]`
for a filename containing at least one `'.'`. -/
def extensionOf (filename : String) : String :=
  ⟨(filename.toList.reverse.takeWhile (fun c => c ≠ '.')).reverse⟩

/-- `triggers_CI` from src/scripts/git/prepare-commit-msg lines 14-26: a file
triggers CI unless it has an extension (at least one `'.'`) belonging to the
configured `no_ci_triggered` allow-list. -/
def triggers_CI (no_ci_triggered : List String) (filename : String) : Bool :=
  if filename.toList.count '.' > 0 then
    let extension := extensionOf filename
    if extension ∈ no_ci_triggered then false else true
  else true

/-- `doCI` from line 29: whether any staged file triggers CI. -/
def doCI (no_ci_triggered : List String) (changedFiles : List String) : Bool :=
  changedFiles.any (fun filename => triggers_CI no_ci_triggered filename)

/-- The CI-skip marker lines appended at lines 39-42. -/
def ciSkipMarker : String :=
  "# The line below will skip Travis CI.\n" ++
  "# If this is not what you want, delete it.\n" ++
  "[ci skip]\n"

/-- The content written back to the commit-message file (lines 31-42): the original
content, followed by the CI-skip marker exactly when no staged file triggers CI. -/
def rewrittenCommitMsg (no_ci_triggered : List String) (changedFiles : List String)
    (defaultMsg : String) : String :=
  defaultMsg ++ (if doCI no_ci_triggered changedFiles then "" else ciSkipMarker)

/-- The claim-side description of a CI-triggering file, written independently of the
code: the file has no dot in its name, or the text after its last dot is not in the
allow-list. -/
def triggersCISpec (no_ci_triggered : List String) (filename : String) : Prop :=
  '.' ∉ filename.toList ∨ extensionOf filename ∉ no_ci_triggered

instance (l : List String) (f : String) : Decidable (triggersCISpec l f) := by
  unfold triggersCISpec; infer_instance

theorem triggers_CI_eq_spec (no_ci_triggered : List String) (filename : String) :
    triggers_CI no_ci_triggered filename = true ↔
      triggersCISpec no_ci_triggered filename := by
  unfold triggers_CI triggersCISpec
  by_cases hdot : '.' ∈ filename.toList
  · have hcount : filename.toList.count '.' > 0 := List.count_pos_iff.mpr hdot
    rw [if_pos hcount]
    by_cases hext : extensionOf filename ∈ no_ci_triggered
    · rw [if_pos hext]
      simp only [Bool.false_eq_true, false_iff]
      push_neg
      exact ⟨hdot, hext⟩
    · rw [if_neg hext]
      exact iff_of_true rfl (Or.inr hext)
  · have hcount : ¬ filename.toList.count '.' > 0 := by
      simp only [gt_iff_lt, List.count_pos_iff]
      exact hdot
    rw [if_neg hcount]
    exact iff_of_true rfl (Or.inl hdot)

theorem ciSkipMarker_ne_empty : ciSkipMarker ≠ "" := by decide

theorem append_marker_iff_aux (no_ci_triggered : List String)
    (changedFiles : List String) :
    doCI no_ci_triggered changedFiles = false ↔
      ∀ f ∈ changedFiles, ¬ triggersCISpec no_ci_triggered f := by
  simp only [doCI, List.any_eq_false, Bool.not_eq_true]
  constructor
  · intro h f hf hspec
    have := (triggers_CI_eq_spec no_ci_triggered f).mpr hspec
    rw [h f hf] at this
    exact Bool.false_ne_true this
  · intro h f hf
    have := h f hf
    rw [← triggers_CI_eq_spec no_ci_triggered f] at this
    exact Bool.not_eq_true _ ▸ Bool.eq_false_iff.mpr (fun he => this he)

/-- C9: the hook appends the CI-skip marker to the commit-message draft exactly when
no staged file triggers CI, where a file triggers CI precisely when it has no `'.'`
in its name or the text after its last `'.'` is outside the configured allow-list;
in particular a staged file without an extension always causes CI, so the message is
left exactly as it was. -/
theorem prepare_commit_msg_marker_iff (no_ci_triggered : List String)
    (changedFiles : List String) (defaultMsg : String) :
    (rewrittenCommitMsg no_ci_triggered changedFiles defaultMsg =
        defaultMsg ++ ciSkipMarker ↔
      ∀ f ∈ changedFiles, ¬ triggersCISpec no_ci_triggered f) ∧
    (∀ f ∈ changedFiles, '.' ∉ f.toList →
      rewrittenCommitMsg no_ci_triggered changedFiles defaultMsg = defaultMsg) := by
  have hiff := append_marker_iff_aux no_ci_triggered changedFiles
  constructor
  · unfold rewrittenCommitMsg
    rcases hdo : doCI no_ci_triggered changedFiles with _ | _
    · simp only [hdo, Bool.false_eq_true, if_false]
      exact iff_of_true trivial (hiff.mp hdo)
    · simp only [hdo, if_true]
      rw [String.append_empty]
      refine iff_of_false ?_ ?_
      · intro habs
        have hlen := congrArg String.length habs
        rw [String.length_append] at hlen
        have hzero : ciSkipMarker.length = 0 := by omega
        exact absurd hzero (by decide)
      · intro h
        rw [hiff.mpr h] at hdo
        exact Bool.false_ne_true hdo
  · intro f hf hnodot
    have htrig : triggers_CI no_ci_triggered f = true := by
      unfold triggers_CI
      have hcount : ¬ f.toList.count '.' > 0 := by
        simp only [gt_iff_lt, List.count_pos_iff]
        exact hnodot
      rw [if_neg hcount]
    have hdo : doCI no_ci_triggered changedFiles = true :=
      List.any_eq_true.mpr ⟨f, hf, htrig⟩
    unfold rewrittenCommitMsg
    rw [hdo]
    simp

/-- Witness for C9 at a concrete allow-list, staged-file list and draft message. -/
theorem prepare_commit_msg_marker_iff_witness :
    rewrittenCommitMsg ["md", "txt"] ["setup"] "initial message\n" =
      "initial message\n" :=
  (prepare_commit_msg_marker_iff ["md", "txt"] ["setup"] "initial message\n").2
    "setup" (List.mem_singleton.mpr rfl) (by decide)

/-- C10: whatever files are staged, the rewritten commit-message file starts with the
original draft unchanged: it equals the original exactly when some staged file
triggers CI, and the original followed by only the marker lines otherwise. -/
theorem prepare_commit_msg_frame (no_ci_triggered : List String)
    (changedFiles : List String) (defaultMsg : String) :
    (∃ tail, rewrittenCommitMsg no_ci_triggered changedFiles defaultMsg =
        defaultMsg ++ tail) ∧
    (doCI no_ci_triggered changedFiles = true →
      rewrittenCommitMsg no_ci_triggered changedFiles defaultMsg = defaultMsg) ∧
    (doCI no_ci_triggered changedFiles = false →
      rewrittenCommitMsg no_ci_triggered changedFiles defaultMsg =
        defaultMsg ++ ciSkipMarker) := by
  refine ⟨⟨if doCI no_ci_triggered changedFiles then "" else ciSkipMarker, rfl⟩, ?_, ?_⟩
  · intro h
    unfold rewrittenCommitMsg
    rw [h]
    simp
  · intro h
    unfold rewrittenCommitMsg
    rw [h]
    simp

/-- Witness for C10 at a concrete allow-list, staged-file list and draft message. -/
theorem prepare_commit_msg_frame_witness :
    rewrittenCommitMsg ["md", "txt"] ["README.md", "docs/notes.txt"] "msg\n" =
      "msg\n" ++ ciSkipMarker :=
  (prepare_commit_msg_frame ["md", "txt"] ["README.md", "docs/notes.txt"] "msg\n").2.2
    (by decide)

end PyGSTi.Hook

namespace PyGSTi.GST

/-! ## LSGST circuit-list generation (C1, C2)

`create_lsgst_circuit_lists` and `repeat_with_max_length` live in pyGSTi's
`pygsti.circuits` package, which is not among the provided source files (only their
callers in `GSTCircuitConstruction.ipynb` are), so they are modelled from the spec.
A circuit is modelled as its flat sequence of gate labels; circuit concatenation is
list append and circuit length is list length. -/

/-- A circuit as the flat sequence of its gate labels. -/
abbrev GateString := List String

/-- Circuit repetition with an explicit power: `n` copies of `x` concatenated. -/
def circuitRepeat {α : Type} (x : List α) (n : ℕ) : List α :=
  (List.replicate n x).flatten

/-- Modelled from the spec: `repeat_with_max_length` (absent from the provided
sources) repeats a circuit a whole number of times, rounding down so the total
length stays within the requested bound, and still includes once a circuit whose
own length already exceeds the bound. -/
def repeat_with_max_length {α : Type} (x : List α) (max_length : ℕ) : List α :=
  if x.length ≤ max_length then circuitRepeat x (max_length / x.length)
  else circuitRepeat x 1

/-- One max-length stage of new LSGST circuits: every
`prep_fiducial ++ repeat_with_max_length germ L ++ meas_fiducial` combination. -/
def lsgstStageCircuits (prep_fiducials meas_fiducials germs : List GateString)
    (max_len : ℕ) : List GateString :=
  germs.flatMap (fun germ =>
    prep_fiducials.flatMap (fun f0 =>
      meas_fiducials.map (fun f1 =>
        f0 ++ repeat_with_max_length germ max_len ++ f1)))

/-- The LGST germ-free fiducial-pair circuits: every preparation fiducial composed
directly with every measurement fiducial. -/
def lgstFiducialPairCircuits (prep_fiducials meas_fiducials : List GateString) :
    List GateString :=
  prep_fiducials.flatMap (fun f0 => meas_fiducials.map (fun f1 => f0 ++ f1))

/-- The germ-power stages: `running` carries every circuit already required at lower
max-lengths, and each stage's list is the deduplicated running union. -/
def lsgstListsAux (prep_fiducials meas_fiducials germs : List GateString)
    (running : List GateString) : List ℕ → List (List GateString)
  | [] => []
  | max_len :: rest =>
    let running2 :=
      running ++ lsgstStageCircuits prep_fiducials meas_fiducials germs max_len
    removeDuplicates running2 ::
      lsgstListsAux prep_fiducials meas_fiducials germs running2 rest

/-- Modelled from the spec: `create_lsgst_circuit_lists` (absent from the provided
sources).  For each max-length it emits all fiducial-sandwiched germ powers unioned
with every circuit already required at lower max-lengths; a leading sentinel value 0
substitutes the LGST germ-free fiducial-pair set as the first stage.  The
`op_labels` argument names the gate labels of the target model; the spec's words
for the claims settled here do not make the produced circuits depend on it. -/
def create_lsgst_circuit_lists (op_labels : List String)
    (prep_fiducials meas_fiducials germs : List GateString)
    (max_lengths : List ℕ) : List (List GateString) :=
  match max_lengths with
  | 0 :: rest =>
    let lgst := lgstFiducialPairCircuits prep_fiducials meas_fiducials
    removeDuplicates lgst ::
      lsgstListsAux prep_fiducials meas_fiducials germs lgst rest
  | ls => lsgstListsAux prep_fiducials meas_fiducials germs [] ls

theorem lsgstListsAux_running_subset (prep_fiducials meas_fiducials germs :
    List GateString) (ls : List ℕ) :
    ∀ (running : List GateString) (k : ℕ)
      (h : k < (lsgstListsAux prep_fiducials meas_fiducials germs running ls).length),
      running ⊆
        (lsgstListsAux prep_fiducials meas_fiducials germs running ls).get ⟨k, h⟩ := by
  induction ls with
  | nil => intro running k h; exact absurd h (by simp [lsgstListsAux])
  | cons L rest ih =>
    intro running k h
    match k with
    | 0 =>
      intro c hc
      exact (mem_removeDuplicates _ c).mpr (List.mem_append_left _ hc)
    | Nat.succ k2 =>
      intro c hc
      have h2 : k2 < (lsgstListsAux prep_fiducials meas_fiducials germs
          (running ++ lsgstStageCircuits prep_fiducials meas_fiducials germs L)
          rest).length := by
        simpa [lsgstListsAux] using h
      exact ih _ k2 h2 (List.mem_append_left _ hc)

theorem lsgstListsAux_nested (prep_fiducials meas_fiducials germs : List GateString)
    (ls : List ℕ) :
    ∀ (running : List GateString) (i j : ℕ) (hij : i < j)
      (hj : j < (lsgstListsAux prep_fiducials meas_fiducials germs running ls).length),
      (lsgstListsAux prep_fiducials meas_fiducials germs running ls).get
          ⟨i, Nat.lt_trans hij hj⟩ ⊆
        (lsgstListsAux prep_fiducials meas_fiducials germs running ls).get ⟨j, hj⟩ := by
  induction ls with
  | nil => intro running i j hij hj; exact absurd hj (by simp [lsgstListsAux])
  | cons L rest ih =>
    intro running i j hij hj
    match i, j with
    | 0, Nat.succ j2 =>
      intro c hc
      have hc2 : c ∈ running ++
          lsgstStageCircuits prep_fiducials meas_fiducials germs L :=
        (mem_removeDuplicates _ c).mp hc
      have hj2 : j2 < (lsgstListsAux prep_fiducials meas_fiducials germs
          (running ++ lsgstStageCircuits prep_fiducials meas_fiducials germs L)
          rest).length := by
        simpa [lsgstListsAux] using hj
      exact lsgstListsAux_running_subset prep_fiducials meas_fiducials germs rest _
        j2 hj2 hc2
    | Nat.succ i2, Nat.succ j2 =>
      intro c hc
      have hj2 : j2 < (lsgstListsAux prep_fiducials meas_fiducials germs
          (running ++ lsgstStageCircuits prep_fiducials meas_fiducials germs L)
          rest).length := by
        simpa [lsgstListsAux] using hj
      exact ih _ i2 j2 (Nat.lt_of_succ_lt_succ hij) hj2 hc

/-- C1: for every set of preparation fiducials, measurement fiducials, germs and
strictly ascending max-length list, the circuit lists produced by
`create_lsgst_circuit_lists` are nested: for `i < j`, every circuit of the stage-`i`
list also belongs to the stage-`j` list. -/
theorem create_lsgst_circuit_lists_nested (op_labels : List String)
    (prep_fiducials meas_fiducials germs : List GateString)
    (max_lengths : List ℕ) (hasc : List.Sorted (· < ·) max_lengths)
    (i j : ℕ) (hij : i < j)
    (hj : j < (create_lsgst_circuit_lists op_labels prep_fiducials meas_fiducials
        germs max_lengths).length) :
    (create_lsgst_circuit_lists op_labels prep_fiducials meas_fiducials germs
        max_lengths).get ⟨i, Nat.lt_trans hij hj⟩ ⊆
      (create_lsgst_circuit_lists op_labels prep_fiducials meas_fiducials germs
        max_lengths).get ⟨j, hj⟩ := by
  match max_lengths with
  | [] => exact absurd hj (by simp [create_lsgst_circuit_lists, lsgstListsAux])
  | 0 :: rest =>
    match i, j with
    | 0, Nat.succ j2 =>
      intro c hc
      have hc2 : c ∈ lgstFiducialPairCircuits prep_fiducials meas_fiducials :=
        (mem_removeDuplicates _ c).mp hc
      have hj2 : j2 < (lsgstListsAux prep_fiducials meas_fiducials germs
          (lgstFiducialPairCircuits prep_fiducials meas_fiducials) rest).length := by
        simpa [create_lsgst_circuit_lists] using hj
      exact lsgstListsAux_running_subset prep_fiducials meas_fiducials germs rest _
        j2 hj2 hc2
    | Nat.succ i2, Nat.succ j2 =>
      have hj2 : j2 < (lsgstListsAux prep_fiducials meas_fiducials germs
          (lgstFiducialPairCircuits prep_fiducials meas_fiducials) rest).length := by
        simpa [create_lsgst_circuit_lists] using hj
      exact lsgstListsAux_nested prep_fiducials meas_fiducials germs rest _
        i2 j2 (Nat.lt_of_succ_lt_succ hij) hj2
  | (Nat.succ L) :: rest =>
    exact lsgstListsAux_nested prep_fiducials meas_fiducials germs
      (Nat.succ L :: rest) [] i j hij hj

/-- Witness for C1 at concrete fiducials, germs and the ascending list [1, 2]. -/
theorem create_lsgst_circuit_lists_nested_witness :
    List.Sorted (· < ·) [1, 2] ∧
      (create_lsgst_circuit_lists ["Gx", "Gy"] [[], ["Gx"]] [[], ["Gx"]]
          [["Gx"]] [1, 2]).get ⟨0, by decide⟩ ⊆
        (create_lsgst_circuit_lists ["Gx", "Gy"] [[], ["Gx"]] [[], ["Gx"]]
          [["Gx"]] [1, 2]).get ⟨1, by decide⟩ :=
  ⟨by decide, create_lsgst_circuit_lists_nested ["Gx", "Gy"] [[], ["Gx"]]
    [[], ["Gx"]] [["Gx"]] [1, 2] (by decide) 0 1 (by decide) (by decide)⟩

theorem circuitRepeat_length {α : Type} (x : List α) (n : ℕ) :
    (circuitRepeat x n).length = n * x.length := by
  induction n with
  | zero => simp [circuitRepeat]
  | succ k ih =>
    simp only [circuitRepeat, List.replicate_succ, List.flatten_cons,
      List.length_append] at ih ⊢
    rw [ih, Nat.succ_mul]
    omega

/-- C2: `repeat_with_max_length` repeats its argument a whole number of times — the
largest repetition count whose total length stays within the requested bound — and a
circuit whose own length already exceeds the bound is still included exactly once. -/
theorem repeat_with_max_length_spec {α : Type} (x : List α) (max_length : ℕ)
    (hx : x ≠ []) :
    ∃ n, repeat_with_max_length x max_length = circuitRepeat x n ∧
      (x.length ≤ max_length →
        (circuitRepeat x n).length ≤ max_length ∧
          ∀ m, m * x.length ≤ max_length → m ≤ n) ∧
      (max_length < x.length → n = 1) := by
  have hlen : 0 < x.length := List.length_pos.mpr hx
  by_cases hle : x.length ≤ max_length
  · refine ⟨max_length / x.length, ?_, ?_, ?_⟩
    · simp [repeat_with_max_length, hle]
    · intro _
      refine ⟨?_, ?_⟩
      · rw [circuitRepeat_length]
        exact Nat.div_mul_le_self max_length x.length
      · intro m hm
        exact (Nat.le_div_iff_mul_le hlen).mpr hm
    · intro hlt; exact absurd hle (Nat.not_le_of_lt hlt)
  · refine ⟨1, ?_, ?_, ?_⟩
    · simp [repeat_with_max_length, hle]
    · intro hc; exact absurd hc hle
    · intro _; rfl

/-- Witness for C2: a two-gate circuit under bound 5 (two whole repetitions) and
under bound 1 (included exactly once despite exceeding the bound). -/
theorem repeat_with_max_length_spec_witness :
    (["Gx", "Gy"] : GateString) ≠ [] ∧
      ∃ n, repeat_with_max_length (["Gx", "Gy"] : GateString) 5 = circuitRepeat ["Gx", "Gy"] n ∧
        ((["Gx", "Gy"] : GateString).length ≤ 5 →
          (circuitRepeat (["Gx", "Gy"] : GateString) n).length ≤ 5 ∧
            ∀ m, m * (["Gx", "Gy"] : GateString).length ≤ 5 → m ≤ n) ∧
        (5 < (["Gx", "Gy"] : GateString).length → n = 1) :=
  ⟨by decide, repeat_with_max_length_spec ["Gx", "Gy"] 5 (by decide)⟩

end PyGSTi.GST

namespace PyGSTi.Protocols

/-! ## CombinedExperimentDesign (C6)

`CombinedExperimentDesign.__setitem__` lives in `pygsti.protocols`, which is not
among the provided source files (only its caller in `ExperimentDesign.ipynb` is), so
it is modelled from the spec.  Circuits are opaque keys here, so the design is
parameterized over a circuit type with decidable equality. -/

/-- Modelled from the spec: a `CombinedExperimentDesign` is a named, ordered
container of sub-designs, each contributing its list of circuits. -/
structure CombinedExperimentDesign (α : Type) where
  subDesigns : List (String × List α)

/-- Modelled from the spec: the overall circuit list of a combined design is the
deduplicated union of its sub-designs' circuits in insertion order. -/
def all_circuits_needing_data {α : Type} [DecidableEq α]
    (d : CombinedExperimentDesign α) : List α :=
  removeDuplicates (d.subDesigns.flatMap (fun p => p.2))

/-- Modelled from the spec: `CombinedExperimentDesign.__setitem__` admits a new
sub-design only when it introduces no circuits outside the existing union, failing
with an invalid-configuration error otherwise. -/
def setSubDesign {α : Type} [DecidableEq α] (d : CombinedExperimentDesign α)
    (key : String) (sub : List α) : Except String (CombinedExperimentDesign α) :=
  if sub.all (fun c => c ∈ all_circuits_needing_data d) then
    Except.ok ⟨d.subDesigns ++ [(key, sub)]⟩
  else
    Except.error "Cannot add sub-design: circuits may not be added to a combined design"

theorem removeDuplicatesAux_congr {α : Type} [DecidableEq α] (l : List α) :
    ∀ (s1 s2 : List α), (∀ x, x ∈ s1 ↔ x ∈ s2) →
      removeDuplicatesAux s1 l = removeDuplicatesAux s2 l := by
  induction l with
  | nil => intro s1 s2 _; rfl
  | cons y rest ih =>
    intro s1 s2 hs
    simp only [removeDuplicatesAux]
    by_cases hy : y ∈ s1
    · rw [if_pos hy, if_pos ((hs y).mp hy)]
      exact ih s1 s2 hs
    · rw [if_neg hy, if_neg (fun h => hy ((hs y).mpr h))]
      refine congrArg (y :: ·) (ih _ _ ?_)
      intro x
      simp only [List.mem_cons]
      exact or_congr Iff.rfl (hs x)

theorem removeDuplicatesAux_append {α : Type} [DecidableEq α] (a : List α) :
    ∀ (seen b : List α),
      removeDuplicatesAux seen (a ++ b) =
        removeDuplicatesAux seen a ++ removeDuplicatesAux (a ++ seen) b := by
  induction a with
  | nil => intro seen b; rfl
  | cons y rest ih =>
    intro seen b
    simp only [List.cons_append, removeDuplicatesAux, List.append_eq]
    by_cases hy : y ∈ seen
    · rw [if_pos hy, if_pos hy, ih seen b]
      refine congrArg (fun t => removeDuplicatesAux seen rest ++ t)
        (removeDuplicatesAux_congr b _ _ ?_)
      intro x
      constructor
      · intro hx
        exact List.mem_cons_of_mem y hx
      · intro hx
        rcases List.mem_cons.mp hx with rfl | hx2
        · exact List.mem_append_right rest hy
        · exact hx2
    · rw [if_neg hy, if_neg hy, List.cons_append, ih (y :: seen) b]
      refine congrArg (fun t => y :: (removeDuplicatesAux (y :: seen) rest ++ t))
        (removeDuplicatesAux_congr b _ _ ?_)
      intro x
      simp only [List.mem_append, List.mem_cons]
      tauto

theorem removeDuplicatesAux_eq_nil {α : Type} [DecidableEq α] (b : List α) :
    ∀ (seen : List α), (∀ x ∈ b, x ∈ seen) → removeDuplicatesAux seen b = [] := by
  induction b with
  | nil => intro seen _; rfl
  | cons y rest ih =>
    intro seen hb
    simp only [removeDuplicatesAux, if_pos (hb y (List.mem_cons_self y rest))]
    exact ih seen (fun x hx => hb x (List.mem_cons_of_mem y hx))

theorem removeDuplicates_append_subset {α : Type} [DecidableEq α] (a b : List α)
    (hb : ∀ x ∈ b, x ∈ a) : removeDuplicates (a ++ b) = removeDuplicates a := by
  unfold removeDuplicates
  rw [removeDuplicatesAux_append a [] b,
    removeDuplicatesAux_eq_nil b (a ++ []) (fun x hx => by
      simpa using hb x hx),
    List.append_nil]

/-- C6: assigning a new sub-design into a `CombinedExperimentDesign` succeeds if and
only if every circuit of the new sub-design already belongs to the existing circuit
union; on success `all_circuits_needing_data` is unchanged (hence its length and the
order of previously-present circuits), and otherwise an invalid-configuration error
is returned and no modified design is produced. -/
theorem combined_design_setitem_spec {α : Type} [DecidableEq α]
    (d : CombinedExperimentDesign α) (key : String) (sub : List α) :
    ((∃ d2, setSubDesign d key sub = Except.ok d2) ↔
        ∀ c ∈ sub, c ∈ all_circuits_needing_data d) ∧
    (∀ d2, setSubDesign d key sub = Except.ok d2 →
        all_circuits_needing_data d2 = all_circuits_needing_data d) ∧
    ((∃ c ∈ sub, c ∉ all_circuits_needing_data d) →
        setSubDesign d key sub =
          Except.error
            "Cannot add sub-design: circuits may not be added to a combined design") := by
  by_cases hsub : sub.all (fun c => c ∈ all_circuits_needing_data d)
  · have hmem : ∀ c ∈ sub, c ∈ all_circuits_needing_data d := by
      intro c hc
      have := List.all_eq_true.mp hsub c hc
      exact of_decide_eq_true this
    refine ⟨iff_of_true ⟨⟨d.subDesigns ++ [(key, sub)]⟩, by
      simp [setSubDesign, hsub]⟩ hmem, ?_, ?_⟩
    · intro d2 hd2
      have hd2' : (⟨d.subDesigns ++ [(key, sub)]⟩ : CombinedExperimentDesign α) = d2 := by
        simpa [setSubDesign, hsub] using hd2
      subst hd2'
      unfold all_circuits_needing_data
      simp only [List.flatMap_append, List.flatMap_cons, List.flatMap_nil,
        List.append_nil]
      exact removeDuplicates_append_subset _ sub (fun x hx =>
        (mem_removeDuplicates _ x).mp (hmem x hx))
    · rintro ⟨c, hc, hnc⟩
      exact absurd (hmem c hc) hnc
  · have hmem : ¬ ∀ c ∈ sub, c ∈ all_circuits_needing_data d := by
      intro h
      exact hsub (List.all_eq_true.mpr (fun c hc => decide_eq_true (h c hc)))
    refine ⟨iff_of_false ?_ hmem, ?_, ?_⟩
    · rintro ⟨d2, hd2⟩
      rw [setSubDesign, if_neg hsub] at hd2
      exact Except.noConfusion hd2
    · intro d2 hd2
      rw [setSubDesign, if_neg hsub] at hd2
      exact absurd hd2 (fun h => Except.noConfusion h)
    · intro _
      rw [setSubDesign, if_neg hsub]

/-- Witness for C6: adding a sub-design whose circuits are already present leaves
the combined circuit list unchanged. -/
theorem combined_design_setitem_spec_witness :
    all_circuits_needing_data
        (CombinedExperimentDesign.mk
          [("A", ["c1", "c2"]), ("B", ["c2", "c3"]), ("C", ["c3"])]) =
      all_circuits_needing_data
        (CombinedExperimentDesign.mk [("A", ["c1", "c2"]), ("B", ["c2", "c3"])]) :=
  (combined_design_setitem_spec
      (CombinedExperimentDesign.mk [("A", ["c1", "c2"]), ("B", ["c2", "c3"])])
      "C" ["c3"]).2.1
    (CombinedExperimentDesign.mk
      [("A", ["c1", "c2"]), ("B", ["c2", "c3"]), ("C", ["c3"])])
    rfl

end PyGSTi.Protocols

namespace PyGSTi.Basis

/-! ## ExplicitBasis orthonormality validation (C7)

`ExplicitBasis` lives in `pygsti.baseobjs`, which is not among the provided source
files (only its caller in `Leakage.ipynb` is), so it is modelled from the spec: the
constructor must verify that the supplied matrix set is real-orthonormal under the
Hilbert-Schmidt (trace) inner product, failing with an invalid-input error
otherwise.  A matrix is a row list over an arbitrary commutative ring with decidable
equality, abstracting the notebook's real matrices; exact equality stands in for the
numerical-tolerance comparison. -/

/-- A matrix as its list of rows. -/
abbrev Mat (R : Type) := List (List R)

/-- Dot product of two vectors (rows). -/
def dotRow {R : Type} [CommRing R] (u v : List R) : R :=
  (List.zipWith (fun a b => a * b) u v).sum

/-- The Hilbert-Schmidt trace inner product of two matrices of matching square
shape: the trace of the matrix product, row-by-column. -/
def traceInner {R : Type} [CommRing R] (A B : Mat R) : R :=
  (List.zipWith dotRow A B.transpose).sum

/-- The orthonormality self-check the constructor runs: every element has unit
self-overlap and distinct elements have vanishing mutual overlaps (the pairwise
trace-inner-product matrix is the identity). -/
def isOrthonormalSet {R : Type} [CommRing R] [DecidableEq R] : List (Mat R) → Bool
  | [] => true
  | m :: rest =>
    decide (traceInner m m = 1) &&
      rest.all (fun m2 =>
        decide (traceInner m m2 = 0) && decide (traceInner m2 m = 0)) &&
      isOrthonormalSet rest

/-- Modelled from the spec: an `ExplicitBasis` built from an explicit ordered list
of matrices plus labels. -/
structure ExplicitBasis (R : Type) where
  name : String
  labels : List String
  elements : List (Mat R)

/-- Modelled from the spec: the `ExplicitBasis` constructor validates the supplied
set and fails with an invalid-input error when the orthonormality check fails. -/
def ExplicitBasis.make {R : Type} [CommRing R] [DecidableEq R] (name : String)
    (labels : List String) (elements : List (Mat R)) :
    Except String (ExplicitBasis R) :=
  if isOrthonormalSet elements then Except.ok ⟨name, labels, elements⟩
  else Except.error "basis elements are not orthonormal under the trace inner product"

/-- The claim-side condition, written independently of the check's recursion: the
pairwise trace-inner-product matrix of the supplied set is the identity. -/
def gramIsIdentity {R : Type} [CommRing R] (mxs : List (Mat R)) : Prop :=
  ∀ i j : Fin mxs.length,
    traceInner (mxs.get i) (mxs.get j) = if i = j then 1 else 0

instance {R : Type} [CommRing R] [DecidableEq R] (mxs : List (Mat R)) :
    Decidable (gramIsIdentity mxs) :=
  inferInstanceAs (Decidable (∀ i j : Fin mxs.length,
    traceInner (mxs.get i) (mxs.get j) = if i = j then 1 else 0))

theorem isOrthonormalSet_iff {R : Type} [CommRing R] [DecidableEq R]
    (mxs : List (Mat R)) : isOrthonormalSet mxs = true ↔ gramIsIdentity mxs := by
  induction mxs with
  | nil =>
    refine iff_of_true rfl ?_
    intro i
    exact absurd i.isLt (by simp)
  | cons m rest ih =>
    simp only [isOrthonormalSet, Bool.and_eq_true, List.all_eq_true,
      decide_eq_true_eq, ih]
    constructor
    · rintro ⟨⟨h11, hrow⟩, hrest⟩
      intro i j
      refine Fin.cases ?_ ?_ i
      · refine Fin.cases ?_ ?_ j
        · simpa using h11
        · intro j2
          have hz := (hrow (rest.get j2) (rest.get_mem j2.val j2.isLt)).1
          have hne : (0 : Fin (rest.length + 1)) ≠ j2.succ :=
            (Fin.succ_ne_zero j2).symm
          simpa [if_neg hne] using hz
      · intro i2
        refine Fin.cases ?_ ?_ j
        · have hz := (hrow (rest.get i2) (rest.get_mem i2.val i2.isLt)).2
          have hne : i2.succ ≠ (0 : Fin (rest.length + 1)) := Fin.succ_ne_zero i2
          simpa [if_neg hne] using hz
        · intro j2
          have h := hrest i2 j2
          by_cases hij : i2 = j2
          · subst hij
            simpa using h
          · rw [if_neg hij] at h
            simpa [hij] using h
    · intro hg
      refine ⟨⟨?_, ?_⟩, ?_⟩
      · have h := hg ⟨0, Nat.succ_pos rest.length⟩ ⟨0, Nat.succ_pos rest.length⟩
        simpa using h
      · intro m2 hm2
        obtain ⟨j2, hj2⟩ := List.mem_iff_get.mp hm2
        subst hj2
        constructor
        · have h := hg ⟨0, Nat.succ_pos rest.length⟩ j2.succ
          have hne : (⟨0, Nat.succ_pos rest.length⟩ : Fin (m :: rest).length) ≠
              j2.succ := fun hc => Fin.succ_ne_zero j2 hc.symm
          rw [if_neg hne] at h
          simpa using h
        · have h := hg j2.succ ⟨0, Nat.succ_pos rest.length⟩
          have hne : j2.succ ≠ (⟨0, Nat.succ_pos rest.length⟩ :
              Fin (m :: rest).length) := fun hc => Fin.succ_ne_zero j2 hc
          rw [if_neg hne] at h
          simpa using h
      · intro i2 j2
        have h := hg i2.succ j2.succ
        by_cases hij : i2 = j2
        · subst hij
          simpa using h
        · have hne : i2.succ ≠ j2.succ := fun hc => hij (Fin.succ_injective _ hc)
          rw [if_neg hne] at h
          simpa [hij] using h

/-- C7: constructing a custom basis from an explicit ordered matrix list succeeds
exactly when the supplied set's pairwise trace-inner-product matrix is the identity;
in particular an orthonormal set is accepted and a set with one element breaking
orthonormality is rejected with an invalid-input error. -/
theorem explicit_basis_orthonormality {R : Type} [CommRing R] [DecidableEq R]
    (name : String) (labels : List String) (elements : List (Mat R)) :
    (ExplicitBasis.make name labels elements).isOk = true ↔
      gramIsIdentity elements := by
  unfold ExplicitBasis.make
  by_cases h : isOrthonormalSet elements = true
  · rw [if_pos h]
    exact iff_of_true rfl ((isOrthonormalSet_iff elements).mp h)
  · rw [if_neg h]
    refine iff_of_false ?_ (fun hg => h ((isOrthonormalSet_iff elements).mpr hg))
    intro hc
    exact Bool.false_ne_true hc

/-- Witness for C7 over the integers: the two diagonal 2-by-2 matrix units form an
orthonormal set and are accepted; perturbing the second element breaks
orthonormality and the construction is rejected. -/
theorem explicit_basis_orthonormality_witness :
    (ExplicitBasis.make "diag" ["E00", "E11"]
        ([[[1, 0], [0, 0]], [[0, 0], [0, 1]]] : List (Mat ℤ))).isOk = true ∧
    (ExplicitBasis.make "bad" ["E00", "E11"]
        ([[[1, 0], [0, 0]], [[1, 0], [0, 1]]] : List (Mat ℤ))).isOk = false := by
  constructor
  · exact (explicit_basis_orthonormality "diag" ["E00", "E11"] _).mpr (by decide)
  · refine Bool.eq_false_iff.mpr (fun hok => ?_)
    have hg := (explicit_basis_orthonormality "bad" ["E00", "E11"]
      ([[[1, 0], [0, 0]], [[1, 0], [0, 1]]] : List (Mat ℤ))).mp hok
    have hbad := hg ⟨0, by decide⟩ ⟨1, by decide⟩
    revert hbad
    decide

end PyGSTi.Basis

namespace PyGSTi.Selection

/-! ## Fiducial and germ selection failure contract (C8)

`find_fiducials` and `find_germs` live in `pygsti.algorithms`, which is not among
the provided source files (only their callers in the fiducial-and-germ-selection
notebook are), so their failure contract is modelled from the spec: a bounded search
over candidate sets that, when no candidate qualifies, returns the explicit
no-solution sentinel together with a diagnostic warning instead of raising.  The
search space (all candidate sets within the allowed maximum length) and the
completeness test (informational or amplificational, a numerical eigenvalue
criterion in pyGSTi) are parameters of the model. -/

/-- Modelled from the spec: the outcome of a selection search, an optional solution
(`none` is the Python `None` sentinel) plus diagnostic warnings.  The search is a
total function into this type, so it has no exception path. -/
structure SelectionResult (α : Type) where
  solution : Option α
  warnings : List String
deriving DecidableEq

/-- The diagnostic warning emitted when the search space is exhausted. -/
def noSolutionWarning : String :=
  "WARNING: no qualifying set found within the allowed search space; returning None"

/-- Modelled from the spec: scan the allowed candidate sets in order, returning the
first qualifying one, or the `none` sentinel and a warning when none qualifies. -/
def searchForQualifyingSet {α : Type} (qualifies : α → Bool) :
    List α → SelectionResult α
  | [] => ⟨none, [noSolutionWarning]⟩
  | c :: rest =>
    if qualifies c then ⟨some c, []⟩ else searchForQualifyingSet qualifies rest

/-- Modelled from the spec: `find_germs` searches candidate germ sets within the
allowed maximum germ length for an amplificationally complete one. -/
def find_germs {α : Type} (candidateGermSets : List α)
    (isAmplificationallyComplete : α → Bool) : SelectionResult α :=
  searchForQualifyingSet isAmplificationallyComplete candidateGermSets

/-- Modelled from the spec: `find_fiducials` searches candidate fiducial sets within
the allowed maximum fiducial length for an informationally complete one. -/
def find_fiducials {α : Type} (candidateFiducialSets : List α)
    (isInformationallyComplete : α → Bool) : SelectionResult α :=
  searchForQualifyingSet isInformationallyComplete candidateFiducialSets

theorem searchForQualifyingSet_exhausted {α : Type} (qualifies : α → Bool)
    (cands : List α) (h : ∀ c ∈ cands, qualifies c = false) :
    searchForQualifyingSet qualifies cands = ⟨none, [noSolutionWarning]⟩ := by
  induction cands with
  | nil => rfl
  | cons c rest ih =>
    have hc : ¬ qualifies c = true := by
      rw [h c (List.mem_cons_self c rest)]
      exact Bool.false_ne_true
    simp only [searchForQualifyingSet, if_neg hc]
    exact ih (fun c2 hc2 => h c2 (List.mem_cons_of_mem c hc2))

/-- C8: when no candidate set within the allowed search space qualifies, both
`find_fiducials` and `find_germs` return the explicit no-solution sentinel (`none`)
together with a diagnostic warning; being total functions into `SelectionResult`,
they raise no exception. -/
theorem find_selection_soft_failure {α β : Type}
    (candidateGermSets : List α) (isAmplificationallyComplete : α → Bool)
    (candidateFiducialSets : List β) (isInformationallyComplete : β → Bool)
    (hg : ∀ c ∈ candidateGermSets, isAmplificationallyComplete c = false)
    (hf : ∀ c ∈ candidateFiducialSets, isInformationallyComplete c = false) :
    find_germs candidateGermSets isAmplificationallyComplete =
        ⟨none, [noSolutionWarning]⟩ ∧
      find_fiducials candidateFiducialSets isInformationallyComplete =
        ⟨none, [noSolutionWarning]⟩ :=
  ⟨searchForQualifyingSet_exhausted _ _ hg,
    searchForQualifyingSet_exhausted _ _ hf⟩

/-- Witness for C8: concrete candidate pools whose completeness tests all fail. -/
theorem find_selection_soft_failure_witness :
    find_germs [["Gx"], ["Gy"]] (fun _ => false) =
        ⟨none, [noSolutionWarning]⟩ ∧
      find_fiducials ["f0", "f1"] (fun s => decide (s = "f2")) =
        ⟨none, [noSolutionWarning]⟩ :=
  find_selection_soft_failure [["Gx"], ["Gy"]] (fun _ => false)
    ["f0", "f1"] (fun s => decide (s = "f2"))
    (by decide) (by decide)

end PyGSTi.Selection

namespace PyGSTi.DensityMx

/-! ## Density-matrix effect representations (C4, C5)

Embedded from src/pygsti/evotypes/densitymx/effectreps.pyx.  A state-space
descriptor is reduced to the two fields the constructors consult (`num_qubits` and
`dim`, with `_StateSpace.cast` the identity on it); numpy float entries are
modelled as rationals and the one irrational stored scalar (`abs_elval`) as a real
number. -/

/-- The state-space descriptor fields consulted by the effect representations. -/
structure StateSpace where
  num_qubits : ℕ
  dim : ℕ
deriving DecidableEq

/-- The little-endian encoding loop of `EffectRepComputational.__cinit__`
(lines 69-73): `zvals_int += base * zvals[i]` with `base` doubling each step. -/
def zvalsIntOf (zvals : List ℤ) : ℤ :=
  (zvals.foldl (fun p v => (p.1 + p.2 * v, p.2 * 2)) ((0 : ℤ), (1 : ℤ))).1

/-- The state `EffectRepComputational` holds after construction: the stored `zvals`
array plus the four arguments passed to `EffectCRep_Computational` (lines 74-76). -/
structure EffectRepComputational where
  zvals : List ℤ
  nfactors : ℕ
  zvals_int : ℤ
  abs_elval : ℝ
  dim : ℕ

/-- `EffectRepComputational.__cinit__` (lines 62-76): asserts that the state
space's qubit count equals the `zvals` length, then precomputes
`abs_elval = 1/sqrt(2)^nfactors` and the little-endian bit pattern. -/
noncomputable def EffectRepComputational_cinit (zvals : List ℤ)
    (state_space : StateSpace) : Except String EffectRepComputational :=
  if state_space.num_qubits = zvals.length then
    Except.ok
      { zvals := zvals
        nfactors := zvals.length
        zvals_int := zvalsIntOf zvals
        abs_elval := 1 / Real.sqrt 2 ^ zvals.length
        dim := state_space.dim }
  else Except.error "AssertionError: state_space.num_qubits == len(zvals)"

/-- C4: constructing a computational-basis effect representation from a 0/1 array of
length N succeeds exactly when the state space's qubit count equals N (a mismatch is
an assertion error), and the constructed effect stores the precomputed per-element
magnitude 1/sqrt(2)^N. -/
theorem effect_rep_computational_cinit_spec (zvals : List ℤ)
    (state_space : StateSpace) :
    ((EffectRepComputational_cinit zvals state_space).isOk = true ↔
        state_space.num_qubits = zvals.length) ∧
      ∀ e, EffectRepComputational_cinit zvals state_space = Except.ok e →
        e.abs_elval = 1 / Real.sqrt 2 ^ zvals.length := by
  unfold EffectRepComputational_cinit
  by_cases h : state_space.num_qubits = zvals.length
  · rw [if_pos h]
    refine ⟨iff_of_true rfl h, ?_⟩
    intro e he
    have he2 := (Except.ok.injEq _ _).mp he.symm
    rw [he2]
  · rw [if_neg h]
    refine ⟨iff_of_false (fun hc => Bool.false_ne_true hc) h, ?_⟩
    intro e he
    exact Except.noConfusion he

/-- Witness for C4: a two-qubit computational effect with zvals = [0, 1]. -/
theorem effect_rep_computational_cinit_spec_witness :
    (EffectRepComputational_cinit [0, 1] ⟨2, 16⟩).isOk = true ∧
      (EffectRepComputational_cinit [0, 1] ⟨2, 16⟩).map
          (fun e => e.abs_elval) =
        Except.ok (1 / Real.sqrt 2 ^ 2) := by
  have h := effect_rep_computational_cinit_spec [0, 1] ⟨2, 16⟩
  refine ⟨h.1.mpr rfl, ?_⟩
  have he : EffectRepComputational_cinit [0, 1] ⟨2, 16⟩ =
      Except.ok
        { zvals := [0, 1]
          nfactors := 2
          zvals_int := zvalsIntOf [0, 1]
          abs_elval := 1 / Real.sqrt 2 ^ 2
          dim := 16 } := rfl
  rw [he, Except.map]

/-- A POVM factor as the tensor-product effect representation reads it: its
dimension and, for each effect label, the dense vector `fct[Elbl].to_dense()`. -/
structure PovmFactor where
  dim : ℕ
  effectVec : String → List ℚ

/-- Python `len` applied to an object attribute that may still hold `None`: a
`TypeError` on `None`. -/
def pyLen {α : Type} : Option (List α) → Except String ℕ
  | none => Except.error "TypeError: object of type NoneType has no len()"
  | some l => Except.ok l.length

/-- Python `max` over a list: a `ValueError` on an empty sequence. -/
def pyMax : List ℕ → Except String ℕ
  | [] => Except.error "ValueError: max() arg is an empty sequence"
  | d :: ds => Except.ok (ds.foldl max d)

/-- The state `EffectRepTensorProduct` holds: factors, labels, the kron array (one
row per factor, padded to the maximum factor dimension) and per-factor dims. -/
structure EffectRepTensorProduct where
  povm_factors : List PovmFactor
  effect_labels : List String
  kron_array : List (List ℚ)
  factor_dims : List ℕ
  dim : ℕ

/-- Overwrite the first `new.length` entries of `row`, keeping the padding tail:
numpy `row[0:n] = new`. -/
def overwriteStart (row new : List ℚ) : List ℚ :=
  new ++ row.drop new.length

/-- `_fill_fast_kron` (lines 114-117): row `i` of the kron array receives factor
`i`'s named effect vector in its first `factor_dims[i]` entries. -/
def fillFastKron (e : EffectRepTensorProduct) : EffectRepTensorProduct :=
  { e with
    kron_array :=
      List.zipWith
        (fun row p => overwriteStart row ((p.1.effectVec p.2).take p.1.dim))
        e.kron_array (e.povm_factors.zip e.effect_labels) }

/-- `factor_effects_have_changed` (lines 119-120): re-reads every factor's named
effect vector into the kron array. -/
def factor_effects_have_changed (e : EffectRepTensorProduct) :
    EffectRepTensorProduct :=
  fillFastKron e

/-- `EffectRepTensorProduct.__init__` (lines 90-109), step for step in source
order: the generator max over factor dims (line 92), the kron-array allocation
(lines 93-94, uninitialized `np.empty` storage modelled as zero rows), the
factor-dims array (lines 95-96), the total dimension as the product (line 98), and
then line 99's `nfactors = len(self.povm_factors)` — which reads the attribute
`self.povm_factors` *before* line 100 assigns it, when it still holds its
allocation-time value `None`.  The remainder (attribute assignment, the
state-space dimension assertion of line 108 and the initial kron fill of line 109)
follows. -/
def EffectRepTensorProduct_init (povm_factors : List PovmFactor)
    (effect_labels : List String) (state_space : StateSpace) :
    Except String EffectRepTensorProduct :=
  match pyMax (povm_factors.map PovmFactor.dim) with
  | Except.error e => Except.error e
  | Except.ok max_factor_dim =>
    let kron_array :=
      List.replicate povm_factors.length (List.replicate max_factor_dim (0 : ℚ))
    let factor_dims := povm_factors.map PovmFactor.dim
    let dim := factor_dims.prod
    let self_povm_factors : Option (List PovmFactor) := none
    match pyLen self_povm_factors with
    | Except.error e => Except.error e
    | Except.ok _nfactors =>
      let e0 : EffectRepTensorProduct :=
        { povm_factors := povm_factors
          effect_labels := effect_labels
          kron_array := kron_array
          factor_dims := factor_dims
          dim := dim }
      if state_space.dim = dim then Except.ok (factor_effects_have_changed e0)
      else Except.error "AssertionError: self.state_space.dim == dim"

/-- C5 (code bug): at an input the claim says must succeed — one factor of
dimension 4, one effect label, a state space of matching dimension 4 — the
constructor raises a `TypeError`, because line 99 evaluates
`len(self.povm_factors)` before line 100 assigns that attribute, so it is applied
to `None` on every call. -/
theorem effect_rep_tensor_product_init_bug :
    EffectRepTensorProduct_init
        [⟨4, fun _ => [1, 0, 0, 0]⟩] ["0"] ⟨1, 4⟩ =
      Except.error "TypeError: object of type NoneType has no len()" := rfl

/-- Supporting fact for C5: the `TypeError` of line 99 is unconditional — the
constructor fails on every non-empty factor list, whatever the dimensions. -/
theorem effect_rep_tensor_product_init_always_fails
    (povm_factors : List PovmFactor) (effect_labels : List String)
    (state_space : StateSpace) (hne : povm_factors ≠ []) :
    EffectRepTensorProduct_init povm_factors effect_labels state_space =
      Except.error "TypeError: object of type NoneType has no len()" := by
  match povm_factors, hne with
  | f :: rest, _ => rfl

end PyGSTi.DensityMx

namespace PyGSTi.Circuits

/-! ## The compact circuit string grammar (C3)

The `Circuit` class and its string grammar live in pyGSTi's core (`pygsti.circuits`
and `pygsti.baseobjs.label`), which is not among the provided source files (only
notebook callers are), so both the parser and the single-line renderer
(`Circuit.str`) are modelled from the spec's grammar section: tokens are
`<Name>[:<qubit>]*[;<arg>]*` with ASCII alphanumeric names starting with a letter,
`*` separates items, `^<n>` repeats a token or bracketed group, `[...]` groups
simultaneous tokens into one layer (rejected when two labels share a target line),
an empty bracket pair is an explicit idle layer, braces denote the canonical empty
circuit, and a trailing `@(<label>[,<label>]*)` declares the line labels (when
absent they are inferred from the targets in first-appearance order).  Qubit/line
labels are numerals; argument strings are nonempty runs over digits, dot and
minus. -/

/-- A gate label: name, `:qubit` target suffixes and `;arg` argument suffixes. -/
structure GateLabel where
  name : List Char
  targets : List ℕ
  args : List (List Char)
deriving DecidableEq

/-- One circuit layer: the labels applied simultaneously. -/
abbrev Layer := List GateLabel

/-- A circuit: its ordered layers and the line labels it is defined over. -/
structure Circuit where
  layers : List Layer
  line_labels : List ℕ
deriving DecidableEq

/-- ASCII decimal digit. -/
def isDigitChar (c : Char) : Bool := 48 ≤ c.toNat && c.toNat ≤ 57

/-- ASCII letter. -/
def isAlphaChar (c : Char) : Bool :=
  (65 ≤ c.toNat && c.toNat ≤ 90) || (97 ≤ c.toNat && c.toNat ≤ 122)

/-- A character allowed inside a gate name after its leading letter. -/
def isNameChar (c : Char) : Bool := isAlphaChar c || isDigitChar c

/-- A character allowed inside an argument suffix. -/
def isArgChar (c : Char) : Bool := isDigitChar c || c = '.' || c = '-'

/-- The decimal digit characters. -/
def digitChar : ℕ → Char
  | 0 => '0' | 1 => '1' | 2 => '2' | 3 => '3' | 4 => '4'
  | 5 => '5' | 6 => '6' | 7 => '7' | 8 => '8' | _ => '9'

/-- The numeric value of a digit character. -/
def charDigit (c : Char) : ℕ := c.toNat - 48

/-- Decimal rendering of a natural number, most significant digit first. -/
def natToChars (n : ℕ) : List Char :=
  if n < 10 then [digitChar n] else natToChars (n / 10) ++ [digitChar (n % 10)]
termination_by n
decreasing_by exact Nat.div_lt_self (by omega) (by omega)

/-- Decimal reading of a digit-character run, with accumulator. -/
def charsToNatAux (acc : ℕ) : List Char → ℕ
  | [] => acc
  | c :: rest => charsToNatAux (10 * acc + charDigit c) rest

/-- Decimal reading of a digit-character run. -/
def charsToNat (cs : List Char) : ℕ := charsToNatAux 0 cs

theorem charDigit_digitChar (d : ℕ) (h : d < 10) : charDigit (digitChar d) = d := by
  interval_cases d <;> rfl

theorem isDigitChar_digitChar (d : ℕ) (h : d < 10) : isDigitChar (digitChar d) = true := by
  interval_cases d <;> rfl

theorem natToChars_ne_nil (n : ℕ) : natToChars n ≠ [] := by
  by_cases h : n < 10
  · rw [natToChars, if_pos h]
    exact List.cons_ne_nil _ _
  · rw [natToChars, if_neg h]
    exact fun hc => List.append_ne_nil_of_right_ne_nil _ (List.cons_ne_nil _ _) hc

theorem natToChars_all_digit (n : ℕ) :
    ∀ c ∈ natToChars n, isDigitChar c = true := by
  induction n using Nat.strong_induction_on with
  | _ n ih =>
    by_cases h : n < 10
    · rw [natToChars, if_pos h]
      intro c hc
      rw [List.mem_singleton.mp hc]
      exact isDigitChar_digitChar n h
    · rw [natToChars, if_neg h]
      intro c hc
      rcases List.mem_append.mp hc with hc2 | hc2
      · exact ih (n / 10) (Nat.div_lt_self (by omega) (by omega)) c hc2
      · rw [List.mem_singleton.mp hc2]
        exact isDigitChar_digitChar (n % 10) (Nat.mod_lt n (by omega))

theorem charsToNatAux_append (xs ys : List Char) (acc : ℕ) :
    charsToNatAux acc (xs ++ ys) = charsToNatAux (charsToNatAux acc xs) ys := by
  induction xs generalizing acc with
  | nil => rfl
  | cons c rest ih => exact ih (10 * acc + charDigit c)

theorem charsToNatAux_natToChars (n : ℕ) :
    ∀ acc, charsToNatAux acc (natToChars n) =
      acc * 10 ^ (natToChars n).length + n := by
  induction n using Nat.strong_induction_on with
  | _ n ih =>
    intro acc
    by_cases h : n < 10
    · rw [natToChars, if_pos h]
      have h1 : charsToNatAux acc [digitChar n] =
          10 * acc + charDigit (digitChar n) := rfl
      rw [h1, charDigit_digitChar n h, List.length_singleton, pow_one]
      ring
    · rw [natToChars, if_neg h]
      rw [charsToNatAux_append]
      have hdiv := Nat.div_lt_self (show 0 < n by omega) (show 1 < 10 by omega)
      rw [ih (n / 10) hdiv acc]
      have hA : charsToNatAux (acc * 10 ^ (natToChars (n / 10)).length + n / 10)
          [digitChar (n % 10)] =
          10 * (acc * 10 ^ (natToChars (n / 10)).length + n / 10) +
            charDigit (digitChar (n % 10)) := rfl
      rw [hA, charDigit_digitChar (n % 10) (Nat.mod_lt n (by omega)),
        List.length_append, List.length_singleton, pow_succ]
      have hmod := Nat.div_add_mod n 10
      have expand : 10 * (acc * 10 ^ (natToChars (n / 10)).length + n / 10) +
          n % 10 =
          acc * (10 ^ (natToChars (n / 10)).length * 10) +
            (10 * (n / 10) + n % 10) := by ring
      rw [expand, hmod]

theorem charsToNat_natToChars (n : ℕ) : charsToNat (natToChars n) = n := by
  unfold charsToNat
  rw [charsToNatAux_natToChars n 0]
  ring

theorem takeWhile_append_all {α : Type} (p : α → Bool) (xs ys : List α)
    (hxs : ∀ x ∈ xs, p x = true)
    (hys : ∀ c, ys.head? = some c → p c = false) :
    (xs ++ ys).takeWhile p = xs ∧ (xs ++ ys).dropWhile p = ys := by
  induction xs with
  | nil =>
    simp only [List.nil_append]
    cases ys with
    | nil => exact ⟨rfl, rfl⟩
    | cons y ys2 =>
      have hy := hys y rfl
      constructor
      · rw [List.takeWhile_cons, hy]
        rfl
      · rw [List.dropWhile_cons, hy]
        rfl
  | cons x rest ih =>
    have hx := hxs x (List.mem_cons_self x rest)
    have ih2 := ih (fun z hz => hxs z (List.mem_cons_of_mem x hz))
    constructor
    · rw [List.cons_append, List.takeWhile_cons, hx]
      simp [ih2.1]
    · rw [List.cons_append, List.dropWhile_cons, hx]
      simp [ih2.2]

theorem dropWhile_head_false {α : Type} (p : α → Bool) (l : List α) :
    ∀ c cs, l.dropWhile p = c :: cs → p c = false := by
  induction l with
  | nil => intro c cs h; exact absurd h (by simp)
  | cons x rest ih =>
    intro c cs h
    rw [List.dropWhile_cons] at h
    by_cases hx : p x = true
    · rw [if_pos hx] at h
      exact ih c cs h
    · rw [if_neg hx] at h
      have : x = c := (List.cons.injEq _ _ _ _).mp h |>.1
      rw [← this]
      exact Bool.eq_false_iff.mpr hx

theorem takeWhile_all {α : Type} (p : α → Bool) (l : List α) :
    ∀ x ∈ l.takeWhile p, p x = true := by
  induction l with
  | nil => intro x hx; exact absurd hx (by simp)
  | cons y rest ih =>
    intro x hx
    rw [List.takeWhile_cons] at hx
    by_cases hy : p y = true
    · rw [if_pos hy] at hx
      rcases List.mem_cons.mp hx with rfl | hx2
      · exact hy
      · exact ih x hx2
    · rw [if_neg hy] at hx
      exact absurd hx (by simp)

theorem length_dropWhile_le {α : Type} (p : α → Bool) (l : List α) :
    (l.dropWhile p).length ≤ l.length :=
  (List.dropWhile_sublist (p := p) (l := l)).length_le

/-- Read a gate name: a leading ASCII letter and its maximal alphanumeric run. -/
def takeName : List Char → Option (List Char × List Char)
  | [] => none
  | c :: rest =>
    if isAlphaChar c then
      some (c :: rest.takeWhile isNameChar, rest.dropWhile isNameChar)
    else none

/-- Read the maximal run of `:<qubit>` target suffixes. -/
def pTargets : List Char → List ℕ × List Char
  | [] => ([], [])
  | c :: rest =>
    if c = ':' then
      let ds := rest.takeWhile isDigitChar
      if ds.isEmpty then ([], c :: rest)
      else
        ((charsToNat ds :: (pTargets (rest.dropWhile isDigitChar)).1),
          (pTargets (rest.dropWhile isDigitChar)).2)
    else ([], c :: rest)
termination_by cs => cs.length
decreasing_by
  all_goals exact Nat.lt_succ_of_le (length_dropWhile_le _ _)

/-- Read the maximal run of `;<arg>` argument suffixes. -/
def pArgs : List Char → List (List Char) × List Char
  | [] => ([], [])
  | c :: rest =>
    if c = ';' then
      let as := rest.takeWhile isArgChar
      if as.isEmpty then ([], c :: rest)
      else
        ((as :: (pArgs (rest.dropWhile isArgChar)).1),
          (pArgs (rest.dropWhile isArgChar)).2)
    else ([], c :: rest)
termination_by cs => cs.length
decreasing_by
  all_goals exact Nat.lt_succ_of_le (length_dropWhile_le _ _)

/-- Read one gate token: `<Name>[:<qubit>]*[;<arg>]*`. -/
def pLabel (cs : List Char) : Except String (GateLabel × List Char) :=
  match takeName cs with
  | none => Except.error "expected a gate name"
  | some (nm, r1) =>
    let tr := pTargets r1
    let ar := pArgs tr.2
    Except.ok (⟨nm, tr.1, ar.1⟩, ar.2)

/-- Read an optional `^<n>` repetition suffix; absent means one occurrence. -/
def pReps : List Char → ℕ × List Char
  | [] => (1, [])
  | c :: rest =>
    if c = '^' then
      let ds := rest.takeWhile isDigitChar
      if ds.isEmpty then (1, c :: rest)
      else (charsToNat ds, rest.dropWhile isDigitChar)
    else (1, c :: rest)

/-- Read the gate tokens of a bracketed layer, stopping in front of the closing
bracket (fuel decreases once per token). -/
def pLayerLabels : ℕ → List Char → Except String (List GateLabel × List Char)
  | 0, _ => Except.error "internal: token fuel exhausted"
  | _ + 1, [] => Except.ok ([], [])
  | fuel + 1, c :: rest =>
    if c = ']' then Except.ok ([], c :: rest)
    else
      match pLabel (c :: rest) with
      | Except.error e => Except.error e
      | Except.ok (l, r2) =>
        match pLayerLabels fuel r2 with
        | Except.error e => Except.error e
        | Except.ok (ls, fin) => Except.ok (l :: ls, fin)

/-- Whether two labels address disjoint target lines. -/
def targetsDisjoint (a b : GateLabel) : Bool :=
  a.targets.all (fun t => !(b.targets.contains t))

/-- The overlap check for a simultaneous layer: no two labels share a target. -/
def noOverlap : List GateLabel → Bool
  | [] => true
  | l :: rest => rest.all (targetsDisjoint l) && noOverlap rest

/-- Read the `*`-separated (separators optional) sequence of items — bare tokens,
bracketed layers, each with an optional `^<n>` suffix — up to the end of the input
or a trailing `@` declaration (fuel decreases once per item or separator). -/
def pItems : ℕ → List Char → List Layer → Except String (List Layer × List Char)
  | 0, _, _ => Except.error "internal: item fuel exhausted"
  | _ + 1, [], acc => Except.ok (acc, [])
  | fuel + 1, c :: cs, acc =>
    if c = '@' then Except.ok (acc, c :: cs)
    else if c = '*' then pItems fuel cs acc
    else if c = '[' then
      match pLayerLabels (cs.length + 1) cs with
      | Except.error e => Except.error e
      | Except.ok (ls, rest) =>
        match rest with
        | c2 :: rest2 =>
          if c2 = ']' then
            if noOverlap ls then
              let rp := pReps rest2
              pItems fuel rp.2 (acc ++ List.replicate rp.1 ls)
            else Except.error "layer contains labels with overlapping targets"
          else Except.error "expected a closing bracket"
        | [] => Except.error "expected a closing bracket"
    else
      match pLabel (c :: cs) with
      | Except.error e => Except.error e
      | Except.ok (l, rest) =>
        let rp := pReps rest
        pItems fuel rp.2 (acc ++ List.replicate rp.1 [l])

/-- Read the remaining `,`-separated line labels of an `@(...)` declaration. -/
def pLineTail : ℕ → List Char → Except String (List ℕ × List Char)
  | 0, _ => Except.error "internal: line-label fuel exhausted"
  | _ + 1, [] => Except.ok ([], [])
  | fuel + 1, c :: rest =>
    if c = ',' then
      let ds := rest.takeWhile isDigitChar
      if ds.isEmpty then Except.error "expected a line label"
      else
        match pLineTail fuel (rest.dropWhile isDigitChar) with
        | Except.error e => Except.error e
        | Except.ok (ns, fin) => Except.ok (charsToNat ds :: ns, fin)
    else Except.ok ([], c :: rest)

/-- Read the trailing line-label declaration: nothing, or a full `@(...)` group
reaching the end of the input. -/
def pDecl : List Char → Except String (Option (List ℕ))
  | [] => Except.ok none
  | c1 :: rest1 =>
    if c1 = '@' then
      match rest1 with
      | [] => Except.error "malformed line-label declaration"
      | c2 :: rest =>
        if c2 = '(' then
          let ds := rest.takeWhile isDigitChar
          if ds.isEmpty then Except.error "expected a line label"
          else
            match pLineTail (rest.length + 1) (rest.dropWhile isDigitChar) with
            | Except.error e => Except.error e
            | Except.ok (ns, fin) =>
              if fin = [')'] then Except.ok (some (charsToNat ds :: ns))
              else Except.error "malformed line-label declaration"
        else Except.error "malformed line-label declaration"
    else Except.error "unexpected trailing characters"

/-- Every target line addressed anywhere in the layers, in order of appearance. -/
def allTargets (layers : List Layer) : List ℕ :=
  layers.flatMap (fun ly => ly.flatMap (fun l => l.targets))

/-- Read a non-brace circuit body (the `*`-separated items) and the optional
trailing line-label declaration; declared line labels must cover every target
used, and absent ones are inferred from the targets in first-appearance order. -/
def parseItemsDecl (cs : List Char) : Except String Circuit :=
  match pItems (cs.length + 1) cs [] with
  | Except.error e => Except.error e
  | Except.ok (layers, rest) =>
    match pDecl rest with
    | Except.error e => Except.error e
    | Except.ok none =>
      Except.ok ⟨layers, PyGSTi.removeDuplicates (allTargets layers)⟩
    | Except.ok (some ls) =>
      if (allTargets layers).all (fun t => decide (t ∈ ls)) then
        Except.ok ⟨layers, ls⟩
      else Except.error "line labels do not cover the gates in the circuit"

/-- Modelled from the spec: the circuit string parser over character lists.  The
canonical empty circuit is a brace pair (optionally followed by a line-label
declaration); every other input is item parsing followed by the declaration. -/
def parseCircuitChars (cs : List Char) : Except String Circuit :=
  match cs with
  | c1 :: c2 :: rest =>
    if c1 = '\x7b' then
      if c2 = '\x7d' then
        match pDecl rest with
        | Except.error e => Except.error e
        | Except.ok none => Except.ok ⟨[], []⟩
        | Except.ok (some ls) => Except.ok ⟨[], ls⟩
      else Except.error "malformed empty-circuit braces"
    else parseItemsDecl (c1 :: c2 :: rest)
  | [c1] =>
    if c1 = '\x7b' then Except.error "malformed empty-circuit braces"
    else parseItemsDecl [c1]
  | [] => parseItemsDecl []

/-- Modelled from the spec: parsing a circuit from its compact string form. -/
def parseCircuitString (s : String) : Except String Circuit :=
  parseCircuitChars s.toList

/-- Render one gate token: name, `:<qubit>` suffixes, `;<arg>` suffixes. -/
def renderLabel (l : GateLabel) : List Char :=
  l.name ++ l.targets.flatMap (fun t => ':' :: natToChars t)
         ++ l.args.flatMap (fun a => ';' :: a)

/-- Render one layer: an explicit-idle bracket pair when empty, a bare token when
a single label, a bracketed group otherwise. -/
def renderLayer : Layer → List Char
  | [] => ['[', ']']
  | [l] => renderLabel l
  | ls => '[' :: ls.flatMap renderLabel ++ [']']

/-- Render the layers `*`-separated. -/
def renderLayersSep : List Layer → List Char
  | [] => []
  | l :: rest => renderLayer l ++ rest.flatMap (fun l2 => '*' :: renderLayer l2)

/-- Render the circuit body: the canonical brace pair when there are no layers. -/
def renderBody : List Layer → List Char
  | [] => ['\x7b', '\x7d']
  | l :: rest => renderLayersSep (l :: rest)

/-- Render the trailing line-label declaration (omitted when empty). -/
def renderLines : List ℕ → List Char
  | [] => []
  | n :: rest =>
    '@' :: '(' :: (natToChars n ++ rest.flatMap (fun m => ',' :: natToChars m)) ++ [')']

/-- Modelled from the spec: `Circuit.str`, the single-line string form. -/
def Circuit.str (c : Circuit) : String :=
  String.mk (renderBody c.layers ++ renderLines c.line_labels)

/-- A well-formed gate name: a letter followed by alphanumerics. -/
def nameOK : List Char → Bool
  | [] => false
  | c :: rest => isAlphaChar c && rest.all isNameChar

/-- A well-formed argument string: a nonempty run of argument characters. -/
def argOK (a : List Char) : Bool := !a.isEmpty && a.all isArgChar

/-- A well-formed gate label. -/
def labelOK (l : GateLabel) : Bool := nameOK l.name && l.args.all argOK

/-- Whether a label's rendering ends in a non-name character (it carries a target
or argument suffix), so that another token may follow it inside a layer. -/
def labelDelimited (l : GateLabel) : Bool := !(l.targets.isEmpty && l.args.isEmpty)

/-- Well-formedness of a layer's token list: all labels well formed, and every
label but the last carrying a suffix (inside a bracket group a bare name would
otherwise fuse with its successor). -/
def layerTokensOK : List GateLabel → Bool
  | [] => true
  | [l] => labelOK l
  | l :: rest => labelOK l && labelDelimited l && layerTokensOK rest

/-- The circuits expressible by the compact string grammar: well-formed
non-fusing tokens, no overlapping targets within a layer, and line labels
covering every target (with no declaration rendered when they are empty). -/
def circuitOK (c : Circuit) : Bool :=
  c.layers.all layerTokensOK && c.layers.all noOverlap &&
    (allTargets c.layers).all (fun t => decide (t ∈ c.line_labels))

/-- The head of `cs` (if any) falsifies `p`. -/
def headNot (p : Char → Bool) (cs : List Char) : Prop :=
  ∀ c, cs.head? = some c → p c = false

/-- The head of `cs` (if any) differs from `a`. -/
def headNe (a : Char) (cs : List Char) : Prop :=
  ∀ c, cs.head? = some c → c ≠ a

theorem headNot_nil (p : Char → Bool) : headNot p [] := fun c h => Option.noConfusion h

theorem headNe_nil (a : Char) : headNe a [] := fun c h => Option.noConfusion h

theorem headNot_cons (p : Char → Bool) (c : Char) (rest : List Char)
    (h : p c = false) : headNot p (c :: rest) := by
  intro d hd
  rw [(Option.some.injEq _ _).mp hd.symm]
  exact h

theorem headNe_cons (a c : Char) (rest : List Char) (h : c ≠ a) :
    headNe a (c :: rest) := by
  intro d hd
  rw [(Option.some.injEq _ _).mp hd.symm]
  exact h

theorem isDigitChar_of_alpha (c : Char) (h : isAlphaChar c = true) :
    isDigitChar c = false := by
  simp only [isAlphaChar, Bool.or_eq_true, Bool.and_eq_true, decide_eq_true_eq] at h
  have hgt : ¬ c.toNat ≤ 57 := by rcases h with ⟨h1, _⟩ | ⟨h1, _⟩ <;> omega
  simp [isDigitChar, hgt]

theorem alpha_ne (c : Char) (h : isAlphaChar c = true) (a : Char)
    (ha : isAlphaChar a = false) : c ≠ a := by
  intro hc
  rw [hc, ha] at h
  exact Bool.false_ne_true h

theorem isArgChar_of_alpha (c : Char) (h : isAlphaChar c = true) :
    isArgChar c = false := by
  unfold isArgChar
  rw [isDigitChar_of_alpha c h]
  have hdot : c ≠ '.' := alpha_ne c h '.' (by decide)
  have hdash : c ≠ '-' := alpha_ne c h '-' (by decide)
  simp [hdot, hdash]

theorem isNameChar_of_alpha (c : Char) (h : isAlphaChar c = true) :
    isNameChar c = true := by
  simp [isNameChar, h]

/-- The follower condition under which target parsing stops cleanly. -/
def targStop (cs : List Char) : Prop := headNot isDigitChar cs ∧ headNe ':' cs

/-- The follower condition under which argument parsing stops cleanly. -/
def argStop (cs : List Char) : Prop := headNot isArgChar cs ∧ headNe ';' cs

theorem takeName_render (nm X : List Char) (hnm : nameOK nm = true)
    (hX : headNot isNameChar X) : takeName (nm ++ X) = some (nm, X) := by
  match nm, hnm with
  | c :: nrest, hnm =>
    have h2 := Bool.and_eq_true_iff.mp hnm
    have htw := takeWhile_append_all isNameChar nrest X
      (fun x hx => List.all_eq_true.mp h2.2 x hx) hX
    rw [List.cons_append]
    rw [takeName, if_pos h2.1, htw.1, htw.2]

theorem pTargets_render (ts : List ℕ) (rest : List Char) (hrest : targStop rest) :
    pTargets (ts.flatMap (fun t => ':' :: natToChars t) ++ rest) = (ts, rest) := by
  induction ts with
  | nil =>
    simp only [List.flatMap_nil, List.nil_append]
    match rest, hrest with
    | [], _ => simp [pTargets]
    | c :: r2, hrest =>
      have hc : ¬ c = ':' := hrest.2 c rfl
      rw [pTargets, if_neg hc]
  | cons t ts2 ih =>
    simp only [List.flatMap_cons, List.cons_append, List.append_assoc]
    have hX : headNot isDigitChar (ts2.flatMap (fun t => ':' :: natToChars t) ++ rest) := by
      match ts2 with
      | [] =>
        simp only [List.flatMap_nil, List.nil_append]
        exact hrest.1
      | t2 :: ts3 =>
        simp only [List.flatMap_cons, List.cons_append]
        exact headNot_cons _ _ _ (by decide)
    have htw := takeWhile_append_all isDigitChar (natToChars t)
      (ts2.flatMap (fun t => ':' :: natToChars t) ++ rest)
      (natToChars_all_digit t) hX
    have hne : (natToChars t).isEmpty = false := by
      rcases hni : natToChars t with _ | ⟨d, ds⟩
      · exact absurd hni (natToChars_ne_nil t)
      · rfl
    rw [pTargets]
    simp only [htw.1, htw.2, hne, if_pos rfl, Bool.false_eq_true, if_false]
    rw [ih, charsToNat_natToChars t, if_pos trivial]

theorem pArgs_render (ags : List (List Char)) (rest : List Char)
    (hags : ∀ a ∈ ags, argOK a = true) (hrest : argStop rest) :
    pArgs (ags.flatMap (fun a => ';' :: a) ++ rest) = (ags, rest) := by
  induction ags with
  | nil =>
    simp only [List.flatMap_nil, List.nil_append]
    match rest, hrest with
    | [], _ => simp [pArgs]
    | c :: r2, hrest =>
      have hc : ¬ c = ';' := hrest.2 c rfl
      rw [pArgs, if_neg hc]
  | cons a ags2 ih =>
    have ha := Bool.and_eq_true_iff.mp (hags a (List.mem_cons_self a ags2))
    simp only [List.flatMap_cons, List.cons_append, List.append_assoc]
    have hX : headNot isArgChar (ags2.flatMap (fun a => ';' :: a) ++ rest) := by
      match ags2 with
      | [] =>
        simp only [List.flatMap_nil, List.nil_append]
        exact hrest.1
      | a2 :: ags3 =>
        simp only [List.flatMap_cons, List.cons_append]
        exact headNot_cons _ _ _ (by decide)
    have htw := takeWhile_append_all isArgChar a
      (ags2.flatMap (fun a => ';' :: a) ++ rest)
      (fun x hx => List.all_eq_true.mp ha.2 x hx) hX
    have hne : a.isEmpty = false := by
      rcases hai : a.isEmpty with _ | _
      · rfl
      · rw [hai] at ha
        exact absurd ha.1 (by simp)
    rw [pArgs]
    simp only [htw.1, htw.2, hne, if_pos rfl, Bool.false_eq_true, if_false]
    rw [if_pos trivial, ih (fun x hx => hags x (List.mem_cons_of_mem a hx))]

theorem head_eq_cons {c0 : Char} {cs : List Char} (h : cs.head? = some c0) :
    ∃ r2, cs = c0 :: r2 := by
  match cs with
  | [] => exact absurd h (by simp)
  | c :: r2 =>
    have hc : c = c0 := by simpa using h
    exact ⟨r2, by rw [hc]⟩

theorem pLabel_render (l : GateLabel) (rest : List Char)
    (hok : labelOK l = true)
    (ht : targStop rest) (ha : argStop rest)
    (hbare : labelDelimited l = true ∨ headNot isNameChar rest) :
    pLabel (renderLabel l ++ rest) = Except.ok (l, rest) := by
  have hok2 := Bool.and_eq_true_iff.mp hok
  have hbody : renderLabel l ++ rest =
      l.name ++ (l.targets.flatMap (fun t => ':' :: natToChars t) ++
        (l.args.flatMap (fun a => ';' :: a) ++ rest)) := by
    unfold renderLabel
    simp [List.append_assoc]
  have hnX : headNot isNameChar
      (l.targets.flatMap (fun t => ':' :: natToChars t) ++
        (l.args.flatMap (fun a => ';' :: a) ++ rest)) := by
    match hts : l.targets with
    | t :: ts2 =>
      simp only [List.flatMap_cons, List.cons_append]
      exact headNot_cons _ _ _ (by decide)
    | [] =>
      simp only [List.flatMap_nil, List.nil_append]
      match has : l.args with
      | a :: ags2 =>
        simp only [List.flatMap_cons, List.cons_append]
        exact headNot_cons _ _ _ (by decide)
      | [] =>
        simp only [List.flatMap_nil, List.nil_append]
        rcases hbare with hd | hn
        · unfold labelDelimited at hd
          rw [hts, has] at hd
          exact absurd hd (by decide)
        · exact hn
  have htX : targStop (l.args.flatMap (fun a => ';' :: a) ++ rest) := by
    match l.args with
    | a :: ags2 =>
      simp only [List.flatMap_cons, List.cons_append]
      exact ⟨headNot_cons _ _ _ (by decide), headNe_cons _ _ _ (by decide)⟩
    | [] =>
      simp only [List.flatMap_nil, List.nil_append]
      exact ht
  rw [hbody]
  unfold pLabel
  rw [takeName_render l.name _ hok2.1 hnX]
  dsimp only
  rw [pTargets_render l.targets _ htX]
  dsimp only
  rw [pArgs_render l.args rest (fun a hx => List.all_eq_true.mp hok2.2 a hx) ha]

theorem pReps_stop (rest : List Char) (h : headNe '^' rest) :
    pReps rest = (1, rest) := by
  match rest with
  | [] => rfl
  | c :: r2 =>
    have hc : ¬ c = '^' := h c rfl
    simp only [pReps, if_neg hc]

theorem layerTokensOK_labels (ls : List GateLabel) (h : layerTokensOK ls = true) :
    ∀ l ∈ ls, labelOK l = true := by
  induction ls with
  | nil => intro l hl; exact absurd hl (by simp)
  | cons l0 rest ih =>
    intro l hl
    match rest, h, ih, hl with
    | [], h, _, hl =>
      rw [List.mem_singleton.mp hl]
      exact h
    | r1 :: r2, h, ih, hl =>
      have h2 := Bool.and_eq_true_iff.mp h
      have h3 := Bool.and_eq_true_iff.mp h2.1
      rcases List.mem_cons.mp hl with rfl | hl2
      · exact h3.1
      · exact ih h2.2 l hl2

theorem layerTokensOK_tail (l : GateLabel) (ls : List GateLabel)
    (h : layerTokensOK (l :: ls) = true) : layerTokensOK ls = true := by
  match ls, h with
  | [], _ => rfl
  | x :: xs, h => exact (Bool.and_eq_true_iff.mp h).2

theorem layerTokensOK_delim (l l2 : GateLabel) (ls : List GateLabel)
    (h : layerTokensOK (l :: l2 :: ls) = true) : labelDelimited l = true := by
  have h2 := Bool.and_eq_true_iff.mp h
  exact (Bool.and_eq_true_iff.mp h2.1).2

theorem renderLabel_length_pos (l : GateLabel) (h : labelOK l = true) :
    1 ≤ (renderLabel l).length := by
  have h2 := Bool.and_eq_true_iff.mp h
  match hn : l.name with
  | [] =>
    rw [hn] at h2
    exact absurd h2.1 (by simp [nameOK])
  | c :: nrest =>
    unfold renderLabel
    rw [hn]
    simp [List.length_append]

theorem flatMap_renderLabel_length (ls : List GateLabel)
    (h : ∀ l ∈ ls, labelOK l = true) :
    ls.length ≤ (ls.flatMap renderLabel).length := by
  induction ls with
  | nil => simp
  | cons l rest ih =>
    simp only [List.flatMap_cons, List.length_append, List.length_cons]
    have h1 := renderLabel_length_pos l (h l (List.mem_cons_self l rest))
    have h2 := ih (fun x hx => h x (List.mem_cons_of_mem l hx))
    omega

theorem renderLabel_cons_form (l : GateLabel) (c : Char) (nrest X : List Char)
    (hn : l.name = c :: nrest) :
    renderLabel l ++ X =
      c :: (nrest ++ (l.targets.flatMap (fun t => ':' :: natToChars t) ++
        (l.args.flatMap (fun a => ';' :: a) ++ X))) := by
  unfold renderLabel
  rw [hn]
  simp [List.append_assoc]

theorem labelOK_name_head (l : GateLabel) (hok : labelOK l = true) :
    ∃ c nrest, l.name = c :: nrest ∧ isAlphaChar c = true := by
  have h1 : nameOK l.name = true := (Bool.and_eq_true_iff.mp hok).1
  match hn : l.name with
  | [] =>
    rw [hn] at h1
    exact absurd h1 (by simp [nameOK])
  | c :: nrest =>
    rw [hn] at h1
    exact ⟨c, nrest, rfl, (Bool.and_eq_true_iff.mp h1).1⟩

theorem pLayerLabels_render (ls : List GateLabel) :
    ∀ (fuel : ℕ) (rest : List Char), layerTokensOK ls = true →
      ls.length < fuel → rest.head? = some ']' →
      pLayerLabels fuel (ls.flatMap renderLabel ++ rest) =
        Except.ok (ls, rest) := by
  induction ls with
  | nil =>
    intro fuel rest _ hfuel hrest
    obtain ⟨r2, rfl⟩ := head_eq_cons hrest
    match fuel, hfuel with
    | f + 1, _ => simp [pLayerLabels]
  | cons l ls2 ih =>
    intro fuel rest hok hfuel hrest
    have hlok : labelOK l = true :=
      layerTokensOK_labels _ hok l (List.mem_cons_self l ls2)
    obtain ⟨c, nrest, hn, halpha⟩ := labelOK_name_head l hlok
    match fuel, hfuel with
    | f + 1, hfuel2 =>
      have hfollow : targStop (ls2.flatMap renderLabel ++ rest) ∧
          argStop (ls2.flatMap renderLabel ++ rest) ∧
          (labelDelimited l = true ∨
            headNot isNameChar (ls2.flatMap renderLabel ++ rest)) := by
        cases ls2 with
        | nil =>
          simp only [List.flatMap_nil, List.nil_append]
          obtain ⟨r2, rfl⟩ := head_eq_cons hrest
          exact ⟨⟨headNot_cons _ _ _ (by decide), headNe_cons _ _ _ (by decide)⟩,
            ⟨headNot_cons _ _ _ (by decide), headNe_cons _ _ _ (by decide)⟩,
            Or.inr (headNot_cons _ _ _ (by decide))⟩
        | cons l2 ls3 =>
          have hl2ok : labelOK l2 = true :=
            layerTokensOK_labels _ hok l2
              (List.mem_cons_of_mem l (List.mem_cons_self l2 ls3))
          obtain ⟨c2, nrest2, hn2, halpha2⟩ := labelOK_name_head l2 hl2ok
          have hform : (l2 :: ls3).flatMap renderLabel ++ rest =
              c2 :: (nrest2 ++ (l2.targets.flatMap (fun t => ':' :: natToChars t) ++
                (l2.args.flatMap (fun a => ';' :: a) ++
                  (ls3.flatMap renderLabel ++ rest)))) := by
            simp only [List.flatMap_cons, List.append_assoc]
            rw [← List.append_assoc (renderLabel l2)]
            rw [renderLabel_cons_form l2 c2 nrest2 _ hn2]
            simp [List.append_assoc]
          rw [hform]
          exact ⟨⟨headNot_cons _ _ _ (isDigitChar_of_alpha c2 halpha2),
              headNe_cons _ _ _ (alpha_ne c2 halpha2 ':' (by decide))⟩,
            ⟨headNot_cons _ _ _ (isArgChar_of_alpha c2 halpha2),
              headNe_cons _ _ _ (alpha_ne c2 halpha2 ';' (by decide))⟩,
            Or.inl (layerTokensOK_delim l l2 ls3 hok)⟩
      have hplabel := pLabel_render l (ls2.flatMap renderLabel ++ rest)
        hlok hfollow.1 hfollow.2.1 hfollow.2.2
      have hstep : (l :: ls2).flatMap renderLabel ++ rest =
          c :: (nrest ++ (l.targets.flatMap (fun t => ':' :: natToChars t) ++
            (l.args.flatMap (fun a => ';' :: a) ++
              (ls2.flatMap renderLabel ++ rest)))) := by
        simp only [List.flatMap_cons, List.append_assoc]
        rw [← List.append_assoc (renderLabel l)]
        rw [renderLabel_cons_form l c nrest _ hn]
        simp [List.append_assoc]
      rw [hstep]
      rw [pLayerLabels]
      have hcne : ¬ c = ']' := alpha_ne c halpha ']' (by decide)
      rw [if_neg hcne]
      rw [← renderLabel_cons_form l c nrest _ hn]
      rw [hplabel]
      dsimp only
      rw [ih f rest (layerTokensOK_tail l ls2 hok)
        (Nat.lt_of_succ_lt_succ hfuel2) hrest]

theorem pItems_terminal (fuel : ℕ) (rest : List Char) (acc : List Layer)
    (hf : 0 < fuel) (hrest : rest = [] ∨ rest.head? = some '@') :
    pItems fuel rest acc = Except.ok (acc, rest) := by
  match fuel, hf with
  | f + 1, _ =>
    rcases hrest with rfl | hr
    · simp [pItems]
    · obtain ⟨r2, rfl⟩ := head_eq_cons hr
      simp [pItems]

/-- The stop conditions satisfied by what follows a rendered item: a separator,
the line-label declaration, or the end of the string. -/
theorem item_follower_props (ls2 : List Layer) (rest : List Char)
    (hrest : rest = [] ∨ rest.head? = some '@') :
    targStop (ls2.flatMap (fun l2 => '*' :: renderLayer l2) ++ rest) ∧
      argStop (ls2.flatMap (fun l2 => '*' :: renderLayer l2) ++ rest) ∧
      headNot isNameChar (ls2.flatMap (fun l2 => '*' :: renderLayer l2) ++ rest) ∧
      headNe '^' (ls2.flatMap (fun l2 => '*' :: renderLayer l2) ++ rest) := by
  cases ls2 with
  | cons l2 ls3 =>
    simp only [List.flatMap_cons, List.cons_append]
    exact ⟨⟨headNot_cons _ _ _ (by decide), headNe_cons _ _ _ (by decide)⟩,
      ⟨headNot_cons _ _ _ (by decide), headNe_cons _ _ _ (by decide)⟩,
      headNot_cons _ _ _ (by decide), headNe_cons _ _ _ (by decide)⟩
  | nil =>
    simp only [List.flatMap_nil, List.nil_append]
    rcases hrest with rfl | hr
    · exact ⟨⟨headNot_nil _, headNe_nil _⟩, ⟨headNot_nil _, headNe_nil _⟩,
        headNot_nil _, headNe_nil _⟩
    · obtain ⟨r2, rfl⟩ := head_eq_cons hr
      exact ⟨⟨headNot_cons _ _ _ (by decide), headNe_cons _ _ _ (by decide)⟩,
        ⟨headNot_cons _ _ _ (by decide), headNe_cons _ _ _ (by decide)⟩,
        headNot_cons _ _ _ (by decide), headNe_cons _ _ _ (by decide)⟩

theorem append_singleton_cons {α : Type} (acc : List α) (l : α) (ls : List α) :
    (acc ++ [l]) ++ ls = acc ++ (l :: ls) := by
  rw [List.append_assoc, List.singleton_append]

theorem pItems_render (layers : List Layer) :
    ∀ (fuel : ℕ) (rest : List Char) (acc : List Layer),
      (∀ ly ∈ layers, layerTokensOK ly = true) →
      (∀ ly ∈ layers, noOverlap ly = true) →
      (rest = [] ∨ rest.head? = some '@') →
      2 * layers.length ≤ fuel → 0 < fuel →
      pItems fuel (renderLayersSep layers ++ rest) acc =
        Except.ok (acc ++ layers, rest) := by
  induction layers with
  | nil =>
    intro fuel rest acc _ _ hrest _ hfb
    simp only [renderLayersSep, List.nil_append]
    rw [pItems_terminal fuel rest acc hfb hrest, List.append_nil]
  | cons l ls2 ih =>
    intro fuel rest acc hok hov hrest hfa hfb
    have hfprops := item_follower_props ls2 rest hrest
    have hcont : ∀ f2, 2 * ls2.length + 1 ≤ f2 →
        pItems f2 (ls2.flatMap (fun l2 => '*' :: renderLayer l2) ++ rest)
          (acc ++ [l]) = Except.ok (acc ++ (l :: ls2), rest) := by
      intro f2 hf2
      cases ls2 with
      | nil =>
        simp only [List.flatMap_nil, List.nil_append]
        rw [pItems_terminal f2 rest (acc ++ [l]) (by omega) hrest]
      | cons l2 ls3 =>
        have hstar : (l2 :: ls3).flatMap (fun l2 => '*' :: renderLayer l2) ++ rest =
            '*' :: (renderLayersSep (l2 :: ls3) ++ rest) := by
          simp only [List.flatMap_cons, List.cons_append, renderLayersSep,
            List.append_assoc]
        rw [hstar]
        obtain ⟨f3, rfl⟩ : ∃ f3, f2 = f3 + 1 := ⟨f2 - 1, by omega⟩
        rw [pItems, if_neg (by decide), if_pos rfl]
        rw [ih f3 rest (acc ++ [l])
          (fun ly hly => hok ly (List.mem_cons_of_mem l hly))
          (fun ly hly => hov ly (List.mem_cons_of_mem l hly))
          hrest (by simp only [List.length_cons] at hf2 ⊢; omega)
          (by simp only [List.length_cons] at hf2; omega)]
        rw [append_singleton_cons]
    have hbody : renderLayersSep (l :: ls2) ++ rest =
        renderLayer l ++ (ls2.flatMap (fun l2 => '*' :: renderLayer l2) ++ rest) := by
      simp only [renderLayersSep, List.append_assoc]
    rw [hbody]
    obtain ⟨f, rfl⟩ : ∃ f, fuel = f + 1 := ⟨fuel - 1, by omega⟩
    · have hf1 : 2 * ls2.length + 1 ≤ f := by
        simp only [List.length_cons] at hfa
        omega
      match hl : l with
      | [] =>
        rw [show renderLayer [] ++ (ls2.flatMap (fun l2 => '*' :: renderLayer l2) ++ rest) =
            '[' :: ']' :: (ls2.flatMap (fun l2 => '*' :: renderLayer l2) ++ rest) from rfl]
        rw [pItems, if_neg (by decide), if_neg (by decide), if_pos rfl]
        rw [pLayerLabels, if_pos rfl]
        dsimp only
        rw [if_pos rfl, if_pos (show noOverlap ([] : List GateLabel) = true from rfl)]
        rw [pReps_stop _ hfprops.2.2.2]
        simp only [List.replicate_one]
        rw [hcont f hf1]
      | [lab] =>
        have hlok : labelOK lab = true := by
          have := hok [lab] (List.mem_cons_self _ _)
          exact this
        obtain ⟨c, nrest, hn, halpha⟩ := labelOK_name_head lab hlok
        have hsingle : renderLayer [lab] = renderLabel lab := rfl
        rw [hsingle, renderLabel_cons_form lab c nrest _ hn]
        rw [pItems,
          if_neg (alpha_ne c halpha '@' (by decide)),
          if_neg (alpha_ne c halpha '*' (by decide)),
          if_neg (alpha_ne c halpha '[' (by decide))]
        rw [← renderLabel_cons_form lab c nrest _ hn]
        rw [pLabel_render lab _ hlok hfprops.1 hfprops.2.1
          (Or.inr hfprops.2.2.1)]
        dsimp only
        rw [pReps_stop _ hfprops.2.2.2]
        simp only [List.replicate_one]
        rw [hcont f hf1]
      | lab1 :: lab2 :: labs =>
        have hltok : layerTokensOK (lab1 :: lab2 :: labs) = true :=
          hok _ (List.mem_cons_self _ _)
        have hbr : renderLayer (lab1 :: lab2 :: labs) ++
            (ls2.flatMap (fun l2 => '*' :: renderLayer l2) ++ rest) =
            '[' :: ((lab1 :: lab2 :: labs).flatMap renderLabel ++
              (']' :: (ls2.flatMap (fun l2 => '*' :: renderLayer l2) ++ rest))) := by
          rw [renderLayer] <;> simp [List.append_assoc]
        rw [hbr]
        rw [pItems, if_neg (by decide), if_neg (by decide), if_pos rfl]
        have hlen : (lab1 :: lab2 :: labs).length <
            ((lab1 :: lab2 :: labs).flatMap renderLabel ++
              (']' :: (ls2.flatMap (fun l2 => '*' :: renderLayer l2) ++ rest))).length + 1 := by
          have h1 := flatMap_renderLabel_length (lab1 :: lab2 :: labs)
            (layerTokensOK_labels _ hltok)
          simp only [List.length_append, List.length_cons] at h1 ⊢
          omega
        rw [pLayerLabels_render (lab1 :: lab2 :: labs) _
          (']' :: (ls2.flatMap (fun l2 => '*' :: renderLayer l2) ++ rest))
          hltok hlen rfl]
        dsimp only
        rw [if_pos rfl, if_pos (hov _ (List.mem_cons_self _ _))]
        rw [pReps_stop _ hfprops.2.2.2]
        simp only [List.replicate_one]
        rw [hcont f hf1]

theorem pLineTail_render (ns : List ℕ) :
    ∀ (fuel : ℕ), ns.length < fuel →
      pLineTail fuel (ns.flatMap (fun m => ',' :: natToChars m) ++ [')']) =
        Except.ok (ns, [')']) := by
  induction ns with
  | nil =>
    intro fuel hfuel
    match fuel, hfuel with
    | f + 1, _ =>
      simp only [List.flatMap_nil, List.nil_append]
      rw [pLineTail, if_neg (by decide)]
  | cons m ns2 ih =>
    intro fuel hfuel
    match fuel, hfuel with
    | f + 1, hfuel2 =>
      have hX : headNot isDigitChar
          (ns2.flatMap (fun m => ',' :: natToChars m) ++ [')']) := by
        cases ns2 with
        | nil => exact headNot_cons _ _ _ (by decide)
        | cons m2 ns3 =>
          simp only [List.flatMap_cons, List.cons_append]
          exact headNot_cons _ _ _ (by decide)
      have htw := takeWhile_append_all isDigitChar (natToChars m)
        (ns2.flatMap (fun m => ',' :: natToChars m) ++ [')'])
        (natToChars_all_digit m) hX
      have hform : (m :: ns2).flatMap (fun m => ',' :: natToChars m) ++ [')'] =
          ',' :: (natToChars m ++ (ns2.flatMap (fun m => ',' :: natToChars m) ++ [')'])) := by
        simp [List.append_assoc]
      rw [hform, pLineTail, if_pos rfl]
      have hne : (natToChars m).isEmpty = false := by
        rcases hni : natToChars m with _ | ⟨d, ds⟩
        · exact absurd hni (natToChars_ne_nil m)
        · rfl
      simp only [htw.1, htw.2, hne, Bool.false_eq_true, if_false]
      rw [ih f (Nat.lt_of_succ_lt_succ hfuel2)]
      dsimp only
      rw [charsToNat_natToChars m]

theorem flatMap_lineLabels_length (ns : List ℕ) :
    ns.length ≤ (ns.flatMap (fun m => ',' :: natToChars m)).length := by
  induction ns with
  | nil => simp
  | cons m ns2 ih =>
    simp only [List.flatMap_cons, List.length_append, List.length_cons]
    omega

theorem pDecl_render (lines : List ℕ) :
    pDecl (renderLines lines) = Except.ok (some lines) ∨
      (lines = [] ∧ pDecl (renderLines lines) = Except.ok none) := by
  cases lines with
  | nil => exact Or.inr ⟨rfl, rfl⟩
  | cons n ns =>
    refine Or.inl ?_
    have hform : renderLines (n :: ns) =
        '@' :: '(' :: (natToChars n ++ (ns.flatMap (fun m => ',' :: natToChars m) ++ [')'])) := by
      unfold renderLines
      simp [List.append_assoc]
    rw [hform, pDecl, if_pos rfl]
    dsimp only
    rw [if_pos rfl]
    have hX : headNot isDigitChar
        (ns.flatMap (fun m => ',' :: natToChars m) ++ [')']) := by
      cases ns with
      | nil => exact headNot_cons _ _ _ (by decide)
      | cons m2 ns3 =>
        simp only [List.flatMap_cons, List.cons_append]
        exact headNot_cons _ _ _ (by decide)
    have htw := takeWhile_append_all isDigitChar (natToChars n)
      (ns.flatMap (fun m => ',' :: natToChars m) ++ [')'])
      (natToChars_all_digit n) hX
    have hne : (natToChars n).isEmpty = false := by
      rcases hni : natToChars n with _ | ⟨d, ds⟩
      · exact absurd hni (natToChars_ne_nil n)
      · rfl
    simp only [htw.1, htw.2, hne, Bool.false_eq_true, if_false]
    have hlen : ns.length <
        (natToChars n ++ (ns.flatMap (fun m => ',' :: natToChars m) ++ [')'])).length + 1 := by
      have h1 := flatMap_lineLabels_length ns
      simp only [List.length_append]
      omega
    rw [pLineTail_render ns _ hlen]
    dsimp only
    rw [if_pos rfl, charsToNat_natToChars n]

theorem renderLayer_length_pos (ly : Layer) (h : layerTokensOK ly = true) :
    1 ≤ (renderLayer ly).length := by
  match ly with
  | [] => decide
  | [l] => exact renderLabel_length_pos l h
  | l1 :: l2 :: ls =>
    rw [renderLayer] <;> simp

theorem renderLayersSep_length (layers : List Layer)
    (h : ∀ ly ∈ layers, layerTokensOK ly = true) :
    2 * layers.length ≤ (renderLayersSep layers).length + 1 := by
  match layers with
  | [] => simp [renderLayersSep]
  | l :: ls =>
    have htail : 2 * ls.length ≤
        (ls.flatMap (fun l2 => '*' :: renderLayer l2)).length := by
      induction ls with
      | nil => simp
      | cons l2 ls2 ih =>
        simp only [List.flatMap_cons, List.length_append, List.length_cons]
        have h2 := renderLayer_length_pos l2
          (h l2 (List.mem_cons_of_mem l (List.mem_cons_self l2 ls2)))
        have h3 := ih (fun ly hly => by
          rcases List.mem_cons.mp hly with rfl | hly2
          · exact h ly (List.mem_cons_self ly _)
          · exact h ly (List.mem_cons_of_mem l (List.mem_cons_of_mem l2 hly2)))
        omega
    have hhead := renderLayer_length_pos l (h l (List.mem_cons_self l ls))
    simp only [renderLayersSep, List.length_append, List.length_cons]
    omega

theorem parseCircuitChars_not_brace (cs : List Char)
    (h : ∀ c r, cs = c :: r → c ≠ '\x7b') :
    parseCircuitChars cs = parseItemsDecl cs := by
  match cs with
  | [] => rfl
  | [c1] =>
    rw [parseCircuitChars, if_neg (h c1 [] rfl)]
  | c1 :: c2 :: rest =>
    rw [parseCircuitChars, if_neg (h c1 _ rfl)]

theorem all_false_nil {α : Type} (l : List α) (h : l.all (fun _ => false) = true) :
    l = [] := by
  match l with
  | [] => rfl
  | x :: rest => exact absurd h (by simp)

theorem parse_render_complete (c : Circuit) (hok : circuitOK c = true) :
    parseCircuitChars (renderBody c.layers ++ renderLines c.line_labels) =
      Except.ok c := by
  obtain ⟨layers, lines⟩ := c
  have hok2 := Bool.and_eq_true_iff.mp hok
  have hok3 := Bool.and_eq_true_iff.mp hok2.1
  have hTok : ∀ ly ∈ layers, layerTokensOK ly = true :=
    fun ly hly => List.all_eq_true.mp hok3.1 ly hly
  have hOv : ∀ ly ∈ layers, noOverlap ly = true :=
    fun ly hly => List.all_eq_true.mp hok3.2 ly hly
  have hCov : ∀ t ∈ allTargets layers, t ∈ lines :=
    fun t ht => of_decide_eq_true (List.all_eq_true.mp hok2.2 t ht)
  match layers with
  | [] =>
    show parseCircuitChars ('\x7b' :: '\x7d' :: renderLines lines) = _
    rw [parseCircuitChars, if_pos rfl, if_pos rfl]
    rcases pDecl_render lines with hd | ⟨rfl, hd⟩
    · rw [hd]
    · rw [hd]
  | l :: ls =>
    have hrest : renderLines lines = [] ∨ (renderLines lines).head? = some '@' := by
      cases lines with
      | nil => exact Or.inl rfl
      | cons n ns => exact Or.inr rfl
    have hnb : ∀ ch r, renderLayersSep (l :: ls) ++ renderLines lines = ch :: r →
        ch ≠ '\x7b' := by
      intro ch r hcr
      match hl : l with
      | [] =>
        have : ch = '[' := by
          have : renderLayersSep ([] :: ls) ++ renderLines lines =
              '[' :: (']' :: (ls.flatMap (fun l2 => '*' :: renderLayer l2) ++
                renderLines lines)) := by
            simp [renderLayersSep, renderLayer, List.append_assoc]
          rw [this] at hcr
          exact ((List.cons.injEq _ _ _ _).mp hcr).1.symm
        rw [this]
        decide
      | [lab] =>
        have hlok : labelOK lab = true := hTok [lab] (List.mem_cons_self _ _)
        obtain ⟨ch2, nrest, hn, halpha⟩ := labelOK_name_head lab hlok
        have hform : renderLayersSep ([lab] :: ls) ++ renderLines lines =
            renderLabel lab ++ ((ls.flatMap (fun l2 => '*' :: renderLayer l2)) ++
              renderLines lines) := by
          simp [renderLayersSep, renderLayer, List.append_assoc]
        rw [hform, renderLabel_cons_form lab ch2 nrest _ hn] at hcr
        have : ch = ch2 := ((List.cons.injEq _ _ _ _).mp hcr).1.symm
        rw [this]
        exact alpha_ne ch2 halpha '\x7b' (by decide)
      | lab1 :: lab2 :: labs =>
        have hform : renderLayersSep ((lab1 :: lab2 :: labs) :: ls) ++ renderLines lines =
            '[' :: ((lab1 :: lab2 :: labs).flatMap renderLabel ++
              (']' :: (ls.flatMap (fun l2 => '*' :: renderLayer l2) ++
                renderLines lines))) := by
          simp only [renderLayersSep]
          rw [renderLayer] <;> simp [List.append_assoc]
        rw [hform] at hcr
        have : ch = '[' := ((List.cons.injEq _ _ _ _).mp hcr).1.symm
        rw [this]
        decide
    show parseCircuitChars (renderLayersSep (l :: ls) ++ renderLines lines) = _
    rw [parseCircuitChars_not_brace _ hnb]
    unfold parseItemsDecl
    have hfuel : 2 * (l :: ls).length ≤
        (renderLayersSep (l :: ls) ++ renderLines lines).length + 1 := by
      have h1 := renderLayersSep_length (l :: ls) hTok
      simp only [List.length_append]
      simp only [List.length_cons] at h1 ⊢
      omega
    rw [pItems_render (l :: ls) _ (renderLines lines) [] hTok hOv hrest hfuel
      (by omega)]
    dsimp only
    rcases pDecl_render lines with hd | ⟨hde, hd⟩
    · rw [hd]
      dsimp only
      rw [if_pos (List.all_eq_true.mpr (fun t ht =>
        decide_eq_true (hCov t (by simpa using ht))))]
      simp
    · rw [hd]
      dsimp only
      have hnt : allTargets (l :: ls) = [] := by
        refine all_false_nil _ ?_
        have := hok2.2
        rw [hde] at this
        simpa using this
      rw [show PyGSTi.removeDuplicates (allTargets ([] ++ l :: ls)) =
          ([] : List ℕ) from by
        simp only [List.nil_append]
        rw [hnt]
        rfl]
      rw [hde]
      simp

theorem takeName_sound (cs nm r : List Char) (h : takeName cs = some (nm, r)) :
    nameOK nm = true ∧ headNot isNameChar r := by
  match cs with
  | [] => exact absurd h (by simp [takeName])
  | c :: rest =>
    rw [takeName] at h
    by_cases hc : isAlphaChar c = true
    · rw [if_pos hc] at h
      have hp := Option.some.inj h
      have hnm : c :: rest.takeWhile isNameChar = nm :=
        congrArg Prod.fst hp
      have hr : rest.dropWhile isNameChar = r := congrArg Prod.snd hp
      constructor
      · rw [← hnm]
        unfold nameOK
        dsimp only
        rw [hc, List.all_eq_true.mpr (takeWhile_all isNameChar rest)]
        rfl
      · rw [← hr]
        intro d hd
        obtain ⟨r2, hr2⟩ := head_eq_cons hd
        exact dropWhile_head_false isNameChar rest d r2 hr2
    · rw [if_neg hc] at h
      exact absurd h (by simp)

theorem pTargets_empty (cs : List Char) (h : (pTargets cs).1 = []) :
    (pTargets cs).2 = cs := by
  match cs with
  | [] => rw [pTargets]
  | c :: rest =>
    rw [pTargets] at h ⊢
    dsimp only at h ⊢
    split_ifs at h ⊢ with h1 h2 <;> simp_all

theorem pArgs_empty (cs : List Char) (h : (pArgs cs).1 = []) :
    (pArgs cs).2 = cs := by
  match cs with
  | [] => rw [pArgs]
  | c :: rest =>
    rw [pArgs] at h ⊢
    dsimp only at h ⊢
    split_ifs at h ⊢ with h1 h2 <;> simp_all

theorem pArgs_args_aux : ∀ (n : ℕ) (cs : List Char), cs.length ≤ n →
    ∀ a ∈ (pArgs cs).1, argOK a = true := by
  intro n
  induction n with
  | zero =>
    intro cs hlen a ha
    match cs, hlen with
    | [], _ => simp [pArgs] at ha
  | succ n ih =>
    intro cs hlen a ha
    match cs with
    | [] => simp [pArgs] at ha
    | c :: rest =>
      rw [pArgs] at ha
      dsimp only at ha
      split_ifs at ha with h1 h2
      · simp at ha
      · rcases List.mem_cons.mp (by simpa using ha) with rfl | ha2
        · unfold argOK
          rw [List.all_eq_true.mpr (takeWhile_all isArgChar rest)]
          have h3 : (rest.takeWhile isArgChar).isEmpty = false :=
            Bool.eq_false_iff.mpr h2
          rw [h3]
          rfl
        · have hlen2 : (rest.dropWhile isArgChar).length ≤ n := by
            have := length_dropWhile_le isArgChar rest
            simp only [List.length_cons] at hlen
            omega
          exact ih (rest.dropWhile isArgChar) hlen2 a ha2
      · simp at ha

theorem pArgs_args_ok (cs : List Char) :
    ∀ a ∈ (pArgs cs).1, argOK a = true :=
  pArgs_args_aux cs.length cs (Nat.le_refl _)

theorem pLabel_sound (cs : List Char) (l : GateLabel) (r : List Char)
    (h : pLabel cs = Except.ok (l, r)) :
    labelOK l = true ∧
      (l.targets = [] → l.args = [] → headNot isNameChar r) := by
  unfold pLabel at h
  match hname : takeName cs with
  | none =>
    rw [hname] at h
    exact absurd h (by simp)
  | some (nm, r1) =>
    rw [hname] at h
    dsimp only at h
    have hp := Except.ok.inj h
    have hl : (⟨nm, (pTargets r1).1, (pArgs (pTargets r1).2).1⟩ : GateLabel) = l :=
      congrArg Prod.fst hp
    have hr : (pArgs (pTargets r1).2).2 = r := congrArg Prod.snd hp
    have hsound := takeName_sound cs nm r1 hname
    constructor
    · rw [← hl]
      unfold labelOK
      rw [hsound.1]
      dsimp only
      rw [List.all_eq_true.mpr (pArgs_args_ok (pTargets r1).2)]
      rfl
    · intro hts has
      rw [← hl] at hts has
      dsimp only at hts has
      have hr2 : (pTargets r1).2 = r1 := pTargets_empty r1 hts
      have hr3 : (pArgs (pTargets r1).2).2 = (pTargets r1).2 :=
        pArgs_empty _ (by rw [hr2] at has ⊢; exact has)
      rw [← hr, hr3, hr2]
      exact hsound.2

theorem takeName_head (cs : List Char) (nm r : List Char)
    (h : takeName cs = some (nm, r)) :
    ∃ c rest, cs = c :: rest ∧ isAlphaChar c = true := by
  match cs with
  | [] => exact absurd h (by simp [takeName])
  | c :: rest =>
    rw [takeName] at h
    by_cases hc : isAlphaChar c = true
    · exact ⟨c, rest, rfl, hc⟩
    · rw [if_neg hc] at h
      exact absurd h (by simp)

theorem pLabel_head (cs : List Char) (l : GateLabel) (r : List Char)
    (h : pLabel cs = Except.ok (l, r)) :
    ∃ c rest, cs = c :: rest ∧ isAlphaChar c = true := by
  unfold pLabel at h
  match hname : takeName cs with
  | none =>
    rw [hname] at h
    exact absurd h (by simp)
  | some (nm, r1) =>
    exact takeName_head cs nm r1 hname

theorem pLayerLabels_cons_head (fuel : ℕ) (cs : List Char) (l : GateLabel)
    (ls : List GateLabel) (fin : List Char)
    (h : pLayerLabels fuel cs = Except.ok (l :: ls, fin)) :
    ∃ d r2, cs = d :: r2 ∧ isAlphaChar d = true := by
  match fuel, cs with
  | 0, _ => exact absurd h (by simp [pLayerLabels])
  | f + 1, [] =>
    rw [pLayerLabels] at h
    exact absurd (congrArg Prod.fst (Except.ok.inj h)) (by simp)
  | f + 1, c :: rest =>
    rw [pLayerLabels] at h
    by_cases hc : c = ']'
    · rw [if_pos hc] at h
      exact absurd (congrArg Prod.fst (Except.ok.inj h)) (by simp)
    · rw [if_neg hc] at h
      match hlab : pLabel (c :: rest) with
      | Except.error e =>
        rw [hlab] at h
        exact absurd h (by simp)
      | Except.ok (l1, r2) =>
        exact pLabel_head (c :: rest) l1 r2 hlab

theorem pLayerLabels_sound (fuel : ℕ) :
    ∀ (cs : List Char) (ls : List GateLabel) (fin : List Char),
      pLayerLabels fuel cs = Except.ok (ls, fin) → layerTokensOK ls = true := by
  induction fuel with
  | zero => intro cs ls fin h; exact absurd h (by simp [pLayerLabels])
  | succ f ih =>
    intro cs ls fin h
    match cs with
    | [] =>
      rw [pLayerLabels] at h
      have : ([] : List GateLabel) = ls := congrArg Prod.fst (Except.ok.inj h)
      rw [← this]
      rfl
    | c :: rest =>
      rw [pLayerLabels] at h
      by_cases hc : c = ']'
      · rw [if_pos hc] at h
        have : ([] : List GateLabel) = ls := congrArg Prod.fst (Except.ok.inj h)
        rw [← this]
        rfl
      · rw [if_neg hc] at h
        match hlab : pLabel (c :: rest) with
        | Except.error e =>
          rw [hlab] at h
          exact absurd h (by simp)
        | Except.ok (l, r2) =>
          rw [hlab] at h
          dsimp only at h
          match hrec : pLayerLabels f r2 with
          | Except.error e =>
            rw [hrec] at h
            exact absurd h (by simp)
          | Except.ok (ls2, fin2) =>
            rw [hrec] at h
            dsimp only at h
            have hp := Except.ok.inj h
            have hls : l :: ls2 = ls := congrArg Prod.fst hp
            rw [← hls]
            have hsound := pLabel_sound (c :: rest) l r2 hlab
            match ls2, hrec with
            | [], _ =>
              unfold layerTokensOK
              exact hsound.1
            | l2 :: ls3, hrec =>
              have htok : layerTokensOK (l2 :: ls3) = true := ih r2 (l2 :: ls3) fin2 hrec
              have hdel : labelDelimited l = true := by
                by_cases hd : labelDelimited l = true
                · exact hd
                · exfalso
                  have hboth : l.targets = [] ∧ l.args = [] := by
                    have h0 := Bool.eq_false_iff.mpr hd
                    unfold labelDelimited at h0
                    simpa using h0
                  have hts : l.targets = [] := hboth.1
                  have has : l.args = [] := hboth.2
                  have hhead := hsound.2 hts has
                  obtain ⟨d, r3, hr3, hda⟩ :=
                    pLayerLabels_cons_head f r2 l2 ls3 fin2 hrec
                  have h1 : isNameChar d = false := by
                    apply hhead
                    rw [hr3]
                    rfl
                  rw [isNameChar_of_alpha d hda] at h1
                  exact Bool.noConfusion h1
              show (labelOK l && labelDelimited l && layerTokensOK (l2 :: ls3)) = true
              rw [hsound.1, hdel, htok]
              rfl

theorem pItems_sound (fuel : ℕ) :
    ∀ (cs : List Char) (acc lys : List Layer) (rest : List Char),
      (∀ ly ∈ acc, layerTokensOK ly = true ∧ noOverlap ly = true) →
      pItems fuel cs acc = Except.ok (lys, rest) →
      ∀ ly ∈ lys, layerTokensOK ly = true ∧ noOverlap ly = true := by
  induction fuel with
  | zero => intro cs acc lys rest hacc h; exact absurd h (by simp [pItems])
  | succ f ih =>
    intro cs acc lys rest hacc h
    match cs with
    | [] =>
      rw [pItems] at h
      have : acc = lys := congrArg Prod.fst (Except.ok.inj h)
      rw [← this]
      exact hacc
    | c :: cs2 =>
      rw [pItems] at h
      by_cases hat : c = '@'
      · rw [if_pos hat] at h
        have : acc = lys := congrArg Prod.fst (Except.ok.inj h)
        rw [← this]
        exact hacc
      · rw [if_neg hat] at h
        by_cases hstar : c = '*'
        · rw [if_pos hstar] at h
          exact ih cs2 acc lys rest hacc h
        · rw [if_neg hstar] at h
          by_cases hbr : c = '['
          · rw [if_pos hbr] at h
            match hll : pLayerLabels (cs2.length + 1) cs2 with
            | Except.error e =>
              rw [hll] at h
              exact absurd h (by simp)
            | Except.ok (ls, rest1) =>
              rw [hll] at h
              dsimp only at h
              match rest1, hll with
              | [], _ => exact absurd h (by simp)
              | c2 :: rest2, hll =>
                dsimp only at h
                by_cases hc2 : c2 = ']'
                · rw [if_pos hc2] at h
                  by_cases hov : noOverlap ls = true
                  · rw [if_pos hov] at h
                    apply ih (pReps rest2).2 (acc ++ List.replicate (pReps rest2).1 ls)
                        lys rest _ h
                    intro ly hly
                    rcases List.mem_append.mp hly with hin | hin
                    · exact hacc ly hin
                    · have : ly = ls := List.eq_of_mem_replicate hin
                      rw [this]
                      exact ⟨pLayerLabels_sound _ cs2 ls (c2 :: rest2) hll, hov⟩
                  · rw [if_neg hov] at h
                    exact absurd h (by simp)
                · rw [if_neg hc2] at h
                  exact absurd h (by simp)
          · rw [if_neg hbr] at h
            match hlab : pLabel (c :: cs2) with
            | Except.error e =>
              rw [hlab] at h
              exact absurd h (by simp)
            | Except.ok (l, rest1) =>
              rw [hlab] at h
              dsimp only at h
              apply ih (pReps rest1).2 (acc ++ List.replicate (pReps rest1).1 [l])
                  lys rest _ h
              intro ly hly
              rcases List.mem_append.mp hly with hin | hin
              · exact hacc ly hin
              · have : ly = [l] := List.eq_of_mem_replicate hin
                rw [this]
                refine ⟨?_, rfl⟩
                show labelOK l = true
                exact (pLabel_sound (c :: cs2) l rest1 hlab).1

theorem parseItemsDecl_sound (cs : List Char) (c : Circuit)
    (h : parseItemsDecl cs = Except.ok c) : circuitOK c = true := by
  unfold parseItemsDecl at h
  match hit : pItems (cs.length + 1) cs [] with
  | Except.error e =>
    rw [hit] at h
    exact absurd h (by simp)
  | Except.ok (layers, rest) =>
    rw [hit] at h
    dsimp only at h
    have hlays := pItems_sound (cs.length + 1) cs [] layers rest
      (fun ly hly => absurd hly (List.not_mem_nil ly)) hit
    have hTok : layers.all layerTokensOK = true :=
      List.all_eq_true.mpr (fun ly hly => (hlays ly hly).1)
    have hOv : layers.all noOverlap = true :=
      List.all_eq_true.mpr (fun ly hly => (hlays ly hly).2)
    match hdec : pDecl rest with
    | Except.error e =>
      rw [hdec] at h
      exact absurd h (by simp)
    | Except.ok none =>
      rw [hdec] at h
      have hc : (⟨layers, PyGSTi.removeDuplicates (allTargets layers)⟩ : Circuit) = c :=
        Except.ok.inj h
      rw [← hc]
      unfold circuitOK
      dsimp only
      rw [hTok, hOv]
      have hcov : (allTargets layers).all
          (fun t => decide (t ∈ PyGSTi.removeDuplicates (allTargets layers))) = true := by
        apply List.all_eq_true.mpr
        intro t ht
        exact decide_eq_true ((PyGSTi.mem_removeDuplicates _ t).mpr ht)
      rw [hcov]
      rfl
    | Except.ok (some ls) =>
      rw [hdec] at h
      dsimp only at h
      by_cases hcov : (allTargets layers).all (fun t => decide (t ∈ ls)) = true
      · rw [if_pos hcov] at h
        have hc : (⟨layers, ls⟩ : Circuit) = c := Except.ok.inj h
        rw [← hc]
        unfold circuitOK
        dsimp only
        rw [hTok, hOv, hcov]
        rfl
      · rw [if_neg hcov] at h
        exact absurd h (by simp)

theorem parse_sound (cs : List Char) (c : Circuit)
    (h : parseCircuitChars cs = Except.ok c) : circuitOK c = true := by
  match cs with
  | [] => exact parseItemsDecl_sound [] c h
  | [c1] =>
    rw [parseCircuitChars] at h
    by_cases h1 : c1 = '\x7b'
    · rw [if_pos h1] at h
      exact absurd h (by simp)
    · rw [if_neg h1] at h
      exact parseItemsDecl_sound [c1] c h
  | c1 :: c2 :: rest =>
    rw [parseCircuitChars] at h
    by_cases h1 : c1 = '\x7b'
    · rw [if_pos h1] at h
      by_cases h2 : c2 = '\x7d'
      · rw [if_pos h2] at h
        match hdec : pDecl rest with
        | Except.error e =>
          rw [hdec] at h
          exact absurd h (by simp)
        | Except.ok none =>
          rw [hdec] at h
          have hc : (⟨[], []⟩ : Circuit) = c := Except.ok.inj h
          rw [← hc]
          rfl
        | Except.ok (some ls) =>
          rw [hdec] at h
          have hc : (⟨[], ls⟩ : Circuit) = c := Except.ok.inj h
          rw [← hc]
          rfl
      · rw [if_neg h2] at h
        exact absurd h (by simp)
    · rw [if_neg h1] at h
      exact parseItemsDecl_sound (c1 :: c2 :: rest) c h

/-- C3: every circuit constructible from the compact circuit-string grammar —
that is, every circuit obtained by parsing some circuit string, covering gate
names, `:qubit` target suffixes, `;arg` argument suffixes, `^n` repetition,
bracketed simultaneous layers, the brace-pair empty circuit, and the `@(...)`
line-label declaration — renders to its single-line string form and re-parses
from that string to a circuit structurally equal to the original, with the same
layers and the same line labels. -/
theorem circuit_str_roundtrip (s : String) (c : Circuit)
    (h : parseCircuitString s = Except.ok c) :
    parseCircuitString (Circuit.str c) = Except.ok c := by
  have hok : circuitOK c = true := parse_sound s.toList c h
  show parseCircuitChars (renderBody c.layers ++ renderLines c.line_labels) =
    Except.ok c
  exact parse_render_complete c hok

/-- Witness for C3 at a concrete circuit: one `Gx` gate on line 0 carrying the
argument `1.5`, then a simultaneous layer of `Gy` on line 0 and `Gz` on line 1,
over declared lines 0, 1, 2; the circuit parses back from its own string form. -/
theorem circuit_str_roundtrip_witness :
    parseCircuitString
        (Circuit.str ⟨[[⟨['G', 'x'], [0], [['1', '.', '5']]⟩],
                       [⟨['G', 'y'], [0], []⟩, ⟨['G', 'z'], [1], []⟩]], [0, 1, 2]⟩) =
      Except.ok ⟨[[⟨['G', 'x'], [0], [['1', '.', '5']]⟩],
                  [⟨['G', 'y'], [0], []⟩, ⟨['G', 'z'], [1], []⟩]], [0, 1, 2]⟩ :=
  circuit_str_roundtrip _ _ (parse_render_complete _ (by decide))

end PyGSTi.Circuits
